import Mathlib

/-!
Verification development for the `gorder` tool: a shallow embedding of the
declaration-sorting core of `main.go` (the current version of the file; an
older version embedded alongside it in the repository snapshot is superseded
by it and is not modelled).

Modelling conventions:

* Go strings are modelled as Lean `String`; Go's byte-wise string comparison
  `<` is modelled by the character-wise comparison `ltS` below (identical on
  ASCII identifiers, which is the domain of declaration names).
* `unicode.IsUpper` / `strings.ToLower` are modelled on ASCII letters, which
  covers every string the classifier manufactures and every Go identifier
  made of ASCII.
* Go `panic` is modelled by `Option`: a function that can panic returns
  `none` on the panicking inputs, and the sorting loop propagates `none`.
* `sort.SliceStable` is modelled faithfully after Go's implementation
  (`stable` in the sort package): insertion sort on consecutive blocks of
  20 elements, followed by rounds of `symMerge` with doubling block size
  (`sliceStable` below).  The slice is a `List`, read with `getAt` and
  written with `swapL` and `rotateSeg`.  Loops carry an explicit
  iteration-count argument: for counted loops (`for i := a+1; i < b; i++`
  and the slide loops) it is the exact trip count; for the binary searches
  it is the width of the search interval and for the `symMerge` recursion
  the width `b - a`, both of which bound the number of steps (each step
  shrinks the interval), and the count-exhausted base case performs the
  loop-exit action, so each function agrees with the Go loop on every
  reachable state.  `rotate` performs no comparisons and is modelled by its
  effect on the slice: the segment `[a, b)` becomes `[m, b) ++ [a, m)`.
  The functional insertion sort `isort` is kept as the reference algorithm:
  `sliceStable` provably coincides with it on lists of at most 20 elements
  (`sliceStable_small`), which is the regime of Go's pure-insertion-sort
  path.
* Throughout the whole algorithm every comparison `Less(i, j)` has
  `i > j`: insertion sort compares `Less(j, j-1)`; the first binary search
  of `symMerge` compares `Less(h, a)` with `h ≥ m > a`, the second
  `Less(m, h)` with `h < m`, and the third `Less(p-c, c)` where
  `p - c ≥ min mid m > c`.  The two `return i < j` branches of the
  `sortDecls` closure compare the current indices of the two elements and
  therefore always return `false`.  The comparator `cmpAdj x y` below is
  that closure specialised to this calling pattern: `x` is the element at
  the larger index.
* `dst` syntax nodes are modelled by the inductive types `Expr`, `Field`,
  `Tok`, `Decl`, carrying exactly the components the sorting code reads.
  A `GenDecl` is modelled with the name of its first spec (`Specs[0]`,
  meaningful when the token is `TYPE`, as produced by the parser).
-/

namespace Gorder

/-- Character-wise lexicographic comparison of char lists, via code points.
Models Go's byte-wise `<` on strings (identical for ASCII). -/
def ltL : List Char → List Char → Bool
  | [], [] => false
  | [], _ :: _ => true
  | _ :: _, [] => false
  | a :: as, b :: bs =>
    if a.toNat < b.toNat then true
    else if b.toNat < a.toNat then false
    else ltL as bs

/-- Go string comparison `s < t`. -/
def ltS (s t : String) : Bool := ltL s.data t.data

/-- Models `strings.HasPrefix(s, p)`. -/
def hasPrefixS (s p : String) : Bool := p.data.isPrefixOf s.data

/-- ASCII lower-casing of one character; models `strings.ToLower` per char
(the source only lower-cases the ASCII prefixes in `commonPrefixes`). -/
def lowerChar (c : Char) : Char :=
  if 65 ≤ c.toNat ∧ c.toNat ≤ 90 then Char.ofNat (c.toNat + 32) else c

/-- Models `strings.ToLower` (on ASCII strings). -/
def lowerS (s : String) : String := String.mk (s.data.map lowerChar)

/-- Models `strings.TrimPrefix(s, p)` under the assumption that `p` is a
prefix of `s` (the source only calls it after a successful `HasPrefix`). -/
def dropPrefixS (s p : String) : String := String.mk (s.data.drop p.data.length)

/-- Splitting of a char list at every occurrence of a separator character:
the semantics of Go's `strings.Split(s, sep)` for a one-character `sep`. -/
def splitChars (sep : Char) : List Char → List (List Char)
  | [] => [[]]
  | c :: rest =>
    if c = sep then [] :: splitChars sep rest
    else
      match splitChars sep rest with
      | [] => [[c]]
      | h :: t => (c :: h) :: t

/-- Number of occurrences of the dot character in a string. -/
def countDots (s : String) : Nat := s.data.count '.'

/-- Models the source constant `magicTypeMarker = "______"`. -/
def magicTypeMarker : String := "______"

/-- Models `var commonPrefixes = []string{...}`. -/
def commonPrefixes : List String :=
  ["Is", "Has", "Get", "All", "Create", "New", "Err", "Error", "Init", "Find", "Set", "Render"]

/-- The loop of `trimCommonPrefix` over the remaining prefix candidates. -/
def trimCommonPrefixAux (s : String) : List String → String × String
  | [] => ("", s)
  | p :: ps =>
    if hasPrefixS s p then (p, dropPrefixS s p)
    else if hasPrefixS s (lowerS p) then (p, dropPrefixS s (lowerS p))
    else trimCommonPrefixAux s ps

/-- Models `trimCommonPrefix`: returns the pair
(canonical matched prefix, remainder after stripping it), or `("", s)` when
no candidate from `commonPrefixes` matches exactly or fully lower-cased. -/
def trimCommonPrefix (s : String) : String × String :=
  trimCommonPrefixAux s commonPrefixes

/-- Models `splitOnDot`: `strings.Split(name, ".")`, panicking (`none`) when
there are more than two components, mapping one component to an empty
receiver, and otherwise returning the two components. -/
def splitOnDot (name : String) : Option (String × String) :=
  match (splitChars '.' name.data).map String.mk with
  | [_] => some ("", name)
  | [a, b] => some (a, b)
  | _ => none

/-- Models `firstUpper`: whether the first character is an upper-case (ASCII)
letter; `false` on the empty string. -/
def firstUpper (name : String) : Bool :=
  match name.data with
  | [] => false
  | c :: _ => 65 ≤ c.toNat ∧ c.toNat ≤ 90

/-- Models `weightAdjustment`: −5 for the magic type marker, −2 for an
exported (upper-case first letter) name, −1 more for a `New` prefix. -/
def weightAdjustment (name : String) : Int :=
  let w : Int := 0
  let w := if name = magicTypeMarker then w - 5 else w
  let w := if firstUpper name then w - 2 else w
  let w := if hasPrefixS name "New" then w - 1 else w
  w

/-- Models `lesss`.  Note a subtlety of the source: it executes
`s1name, s1prefix = trimCommonPrefix(s1name)` while `trimCommonPrefix`
returns `(prefix, remainder)`, so after the call the variable `s1name` holds
the canonical prefix and `s1prefix` holds the remainder; the destructuring
below binds the components to the same (swapped) variable names the source
uses.  The result is `none` when `splitOnDot` panics on either argument. -/
def lesss (s1 s2 : String) : Option Bool :=
  match splitOnDot s1, splitOnDot s2 with
  | some (s1r, s1name0), some (s2r, s2name0) =>
    if s1r ≠ s2r then some (ltS s1r s2r)
    else
      let s1w : Int := 100 + weightAdjustment s1name0
      let s2w : Int := 100 + weightAdjustment s2name0
      if s1w ≠ s2w then some (decide (s1w < s2w))
      else
        let (s1name, s1prefix) := trimCommonPrefix s1name0
        let (s2name, s2prefix) := trimCommonPrefix s2name0
        if s1prefix ≠ "" ∧ s2prefix ≠ "" then some (ltS s1prefix s2prefix)
        else some (ltS s1name s2name)
  | _, _ => none

/-- Models `lessStringers` (both `*dst.Ident` arguments are their names). -/
def lessStringers (s1 s2 : String) : Option Bool := lesss s1 s2

/-- Expressions, carrying exactly what the sorting code inspects: `*dst.Ident`
(its name), `*dst.SelectorExpr` (the printed form of its `X` operand, an
identifier in every well-formed qualified selector, and its `Sel` name),
`*dst.StarExpr` (its operand), and the remaining expression shapes, which the
code either skips (`fieldListName`) or panics on (`strf` in `less`). -/
inductive Expr where
  | ident (name : String)
  | selector (x : String) (sel : String)
  | star (x : Expr)
  | funcTypeE
  | otherE
  deriving DecidableEq

/-- Models `*dst.Field`: the (possibly empty) name list and the type. -/
structure Field where
  names : List String
  type : Expr
  deriving DecidableEq

/-- GenDecl tokens distinguished by the source. -/
inductive Tok where
  | packageTok
  | importTok
  | constTok
  | varTok
  | typeTok
  deriving DecidableEq

/-- Models `dst.Decl`: a function declaration (receiver field list, which is
`none` for a free function, and name), a `GenDecl` (token and the name of
its first type spec), or any other declaration node. -/
inductive Decl where
  | funcDecl (recv : Option (List Field)) (name : String)
  | genDecl (tok : Tok) (specName : String)
  | badDecl
  deriving DecidableEq

/-- Models `fieldListName`: concatenates, over the fields of the list, the
identifier of each field type that is an identifier or a pointer to an
identifier; `nil` field lists give the empty string. -/
def fieldListName (list : Option (List Field)) : String :=
  match list with
  | none => ""
  | some fs =>
    fs.foldl
      (fun b v =>
        match v.type with
        | .star (.ident n) => b ++ n
        | .star _ => b
        | .ident n => b ++ n
        | _ => b)
      ""

/-- Models the closure `strf` inside `less`: the printed form of a selector
or identifier expression, and a panic (`none`) on every other shape. -/
def strf : Expr → Option String
  | .ident n => some n
  | .selector x sel => some (x ++ "." ++ sel)
  | _ => none

/-- Models `less` on two field-type expressions. -/
def less (s t : Expr) : Option Bool :=
  match strf s, strf t with
  | some s1, some s2 => lesss s1 s2
  | _, _ => none

/-- Models `preserveOrder`: package and import `GenDecl`s. -/
def preserveOrder : Decl → Bool
  | .genDecl tok _ => tok == Tok.packageTok || tok == Tok.importTok
  | _ => false

/-- Weight constant from `sortDecls`. -/
def funcWeight : Int := 200

/-- Weight constant from `sortDecls`. -/
def typeWeight : Int := 100

/-- Weight constant from `sortDecls`. -/
def constructorFuncWeight : Int := 50

/-- Weight constant from `sortDecls`. -/
def exportedFuncWeight : Int := 30

/-- Weight constant from `sortDecls`. -/
def mainFuncWeight : Int := 10

/-- Models the closure `funcName` inside `sortDecls`: name and weight of a
function declaration, `("", -1)` for non-functions. -/
def funcName (d : Decl) : String × Int :=
  match d with
  | .funcDecl recv fname =>
    let fr := fieldListName recv
    if fr = "" then
      if fname = "main" then (fname, mainFuncWeight)
      else if hasPrefixS fname "new" then (fname, constructorFuncWeight)
      else if firstUpper fname then
        if hasPrefixS fname "New" then (fname, exportedFuncWeight - 1)
        else (fname, exportedFuncWeight)
      else (fname, funcWeight)
    else (fr ++ "." ++ fname, typeWeight)
  | _ => ("", -1)

/-- Models the closure `genName` inside `sortDecls`: the first type spec name
suffixed with the magic marker for a `TYPE` GenDecl, `("", -1)` otherwise. -/
def genName (d : Decl) : String × Int :=
  match d with
  | .genDecl tok specName =>
    if tok == Tok.typeTok then (specName ++ "." ++ magicTypeMarker, typeWeight)
    else ("", -1)
  | _ => ("", -1)

/-- Models the closure `name` inside `sortDecls`: the pair returned by
`funcName` when its status is not the sentinel, otherwise `genName`. -/
def name (d : Decl) : String × Int :=
  if (funcName d).2 ≠ -1 then funcName d else genName d

/-- The comparator of `sortDecls` as `sort.SliceStable` invokes it
(`Less(j, j-1)`, `x` the element at the larger index): the two `return i < j`
branches of the closure compare the elements' current indices and therefore
return `false` under this calling pattern. -/
def cmpAdj (x y : Decl) : Option Bool :=
  if preserveOrder x || preserveOrder y then some false
  else
    let (si, wi) := name x
    let (sj, wj) := name y
    if wi = -1 ∧ wj = -1 then some false
    else if wi ≠ wj then some (decide (wi < wj))
    else lesss si sj

/-- The comparator of `sortFieldList` under the same calling pattern. -/
def cmpField (fi fj : Field) : Option Bool :=
  match fi.names, fj.names with
  | [], [] => less fi.type fj.type
  | [], _ :: _ => some true
  | _ :: _, [] => some false
  | n1 :: _, n2 :: _ => lessStringers n1 n2

/-- One bubbling pass of stable insertion sort, on the reversed processed
prefix: `x` moves left (= towards the head of the reversed prefix's source)
past every neighbour it compares `some true` against, stops at the first
`some false`, and propagates a comparator panic. -/
def insGo {α : Type} (cmp : α → α → Option Bool) (x : α) : List α → Option (List α)
  | [] => some [x]
  | y :: ys =>
    match cmp x y with
    | none => none
    | some true =>
      match insGo cmp x ys with
      | none => none
      | some r => some (y :: r)
    | some false => some (x :: y :: ys)

/-- The outer loop of stable insertion sort; the accumulator is the reversed
processed prefix. -/
def isortGo {α : Type} (cmp : α → α → Option Bool) : List α → List α → Option (List α)
  | racc, [] => some racc.reverse
  | racc, x :: xs =>
    match insGo cmp x racc with
    | none => none
    | some racc2 => isortGo cmp racc2 xs

/-- Functional stable insertion sort with a panicking comparator: the
reference algorithm, provably equal to `sliceStable` below on lists of at
most 20 elements (`sliceStable_small`). -/
def isort {α : Type} (cmp : α → α → Option Bool) (l : List α) : Option (List α) :=
  isortGo cmp [] l

/-! ### A faithful model of Go `sort.SliceStable`

The functions below transcribe `insertionSort`, `symMerge`, `rotate` and
`stable` from the Go sort package, over a panicking element comparator
`cmp : α → α → Option Bool` (`data.Less(i, j)` is `cmp` applied to the
elements currently at positions `i` and `j`, see `lessAt`). -/

/-- Read the element at position `i` (`none` out of bounds; the algorithm
never reads out of bounds in a reachable state). -/
def getAt {α : Type} : List α → Nat → Option α
  | [], _ => none
  | x :: _, 0 => some x
  | _ :: xs, n + 1 => getAt xs n

/-- `data.Swap(i, j)`: exchange the elements at positions `i` and `j`. -/
def swapL {α : Type} (l : List α) (i j : Nat) : List α :=
  match getAt l i, getAt l j with
  | some x, some y => (l.set i y).set j x
  | _, _ => l

/-- `data.Less(i, j)`: the closure comparator on current positions. -/
def lessAt {α : Type} (cmp : α → α → Option Bool) (l : List α) (i j : Nat) :
    Option Bool :=
  match getAt l i, getAt l j with
  | some x, some y => cmp x y
  | _, _ => none

/-- Inner loop of `insertionSort`:
`for j := i; j > a && data.Less(j, j-1); j-- { data.Swap(j, j-1) }`,
structural on `j` (at `j = 0` the guard `j > a` is false). -/
def insSortInner {α : Type} (cmp : α → α → Option Bool) (a : Nat) :
    Nat → List α → Option (List α)
  | 0, d => some d
  | j + 1, d =>
    if a < j + 1 then
      match lessAt cmp d (j + 1) j with
      | none => none
      | some true => insSortInner cmp a j (swapL d (j + 1) j)
      | some false => some d
    else some d

/-- Outer loop of `insertionSort`: `for i := a+1; i < b; i++`; the first
`Nat` argument is the exact remaining trip count `b - i` of this counted
loop. -/
def insSortOuter {α : Type} (cmp : α → α → Option Bool) (a : Nat) :
    Nat → Nat → List α → Option (List α)
  | 0, _, d => some d
  | cnt + 1, i, d =>
    match insSortInner cmp a i d with
    | none => none
    | some d2 => insSortOuter cmp a cnt (i + 1) d2

/-- `insertionSort(data, a, b)` from the Go sort package. -/
def insertionSortGo {α : Type} (cmp : α → α → Option Bool) (d : List α)
    (a b : Nat) : Option (List α) :=
  insSortOuter cmp a (b - (a + 1)) (a + 1) d

/-- Binary search of the `m-a == 1` branch of `symMerge`:
`for i < j { h := (i+j)/2; if data.Less(h, a) { i = h+1 } else { j = h } }`.
The first `Nat` argument starts at the interval width `j - i`, which bounds
the iteration count (the interval strictly shrinks each step, so the
invariant `width ≤ count` holds and the count-exhausted case coincides with
the loop exit `i = j`). -/
def bsearch1 {α : Type} (cmp : α → α → Option Bool) (d : List α) (a : Nat) :
    Nat → Nat → Nat → Option Nat
  | 0, i, _ => some i
  | cnt + 1, i, j =>
    if i < j then
      match lessAt cmp d ((i + j) / 2) a with
      | none => none
      | some true => bsearch1 cmp d a cnt ((i + j) / 2 + 1) j
      | some false => bsearch1 cmp d a cnt i ((i + j) / 2)
    else some i

/-- Binary search of the `b-m == 1` branch of `symMerge`:
`for i < j { h := (i+j)/2; if !data.Less(m, h) { i = h+1 } else { j = h } }`;
count convention as in `bsearch1`. -/
def bsearch2 {α : Type} (cmp : α → α → Option Bool) (d : List α) (m : Nat) :
    Nat → Nat → Nat → Option Nat
  | 0, i, _ => some i
  | cnt + 1, i, j =>
    if i < j then
      match lessAt cmp d m ((i + j) / 2) with
      | none => none
      | some false => bsearch2 cmp d m cnt ((i + j) / 2 + 1) j
      | some true => bsearch2 cmp d m cnt i ((i + j) / 2)
    else some i

/-- Binary search of the general branch of `symMerge`:
`for start < r { c := (start+r)/2; if !data.Less(p-c, c) { start = c+1 }
else { r = c } }`; count convention as in `bsearch1`. -/
def bsearch3 {α : Type} (cmp : α → α → Option Bool) (d : List α) (p : Nat) :
    Nat → Nat → Nat → Option Nat
  | 0, s, _ => some s
  | cnt + 1, s, r =>
    if s < r then
      match lessAt cmp d (p - (s + r) / 2) ((s + r) / 2) with
      | none => none
      | some false => bsearch3 cmp d p cnt ((s + r) / 2 + 1) r
      | some true => bsearch3 cmp d p cnt s ((s + r) / 2)
    else some s

/-- `for k := a; k < i-1; k++ { data.Swap(k, k+1) }` (comparison-free slide
of the `m-a == 1` branch); the first argument is the exact trip count
`i-1-a`. -/
def slideUp {α : Type} : Nat → Nat → List α → List α
  | 0, _, d => d
  | t + 1, k, d => slideUp t (k + 1) (swapL d k (k + 1))

/-- `for k := m; k > i; k-- { data.Swap(k, k-1) }` (comparison-free slide of
the `b-m == 1` branch); the first argument is the exact trip count `m-i`. -/
def slideDown {α : Type} : Nat → Nat → List α → List α
  | 0, _, d => d
  | t + 1, k, d => slideDown t (k - 1) (swapL d k (k - 1))

/-- `rotate(data, a, m, b)`: a comparison-free block rotation by repeated
`swapRange`, modelled by its effect on the slice — the segment `[a, b)`
becomes `[m, b) ++ [a, m)`. -/
def rotateSeg {α : Type} (d : List α) (a m b : Nat) : List α :=
  d.take a ++ (d.take b).drop m ++ (d.take m).drop a ++ d.drop b

/-- `symMerge(data, a, m, b)`: the two single-element branches insert by
binary search and slide, the general branch rotates around the binary-found
pivot and recurses.  The first `Nat` argument starts at `b - a`, which
bounds the recursion depth (each recursive call strictly shrinks the
interval) and is never exhausted in a reachable state. -/
def symMergeGo {α : Type} (cmp : α → α → Option Bool) :
    Nat → List α → Nat → Nat → Nat → Option (List α)
  | 0, d, _, _, _ => some d
  | cnt + 1, d, a, m, b =>
    if m - a = 1 then
      match bsearch1 cmp d a (b - m) m b with
      | none => none
      | some i => some (slideUp (i - 1 - a) a d)
    else if b - m = 1 then
      match bsearch2 cmp d m (m - a) a m with
      | none => none
      | some i => some (slideDown (m - i) m d)
    else
      let mid := (a + b) / 2
      let n := mid + m
      let s0 := if mid < m then n - b else a
      let r0 := if mid < m then mid else m
      match bsearch3 cmp d (n - 1) (r0 - s0) s0 r0 with
      | none => none
      | some start =>
        let e := n - start
        let d1 := if start < m ∧ m < e then rotateSeg d start m e else d
        match (if a < start ∧ start < mid then
                symMergeGo cmp cnt d1 a start mid
              else some d1) with
        | none => none
        | some d2 =>
          if mid < e ∧ e < b then symMergeGo cmp cnt d2 mid e b else some d2

/-- First phase of `stable`: `a, b := 0, blockSize;
for b <= n { insertionSort(data, a, b); a = b; b += blockSize };
insertionSort(data, a, n)` with `blockSize = 20`.  The first `Nat` argument
starts at `n + 1`, which bounds the trip count (the block start advances by
20 each trip); the count-exhausted case performs the loop-exit action and is
never reached. -/
def stableBlocks {α : Type} (cmp : α → α → Option Bool) (n : Nat) :
    Nat → Nat → Nat → List α → Option (List α)
  | 0, a, _, d => insertionSortGo cmp d a n
  | cnt + 1, a, b, d =>
    if b ≤ n then
      match insertionSortGo cmp d a b with
      | none => none
      | some d2 => stableBlocks cmp n cnt b (b + 20) d2
    else insertionSortGo cmp d a n

/-- Inner loop of the merging phase of `stable`:
`for b <= n { symMerge(data, a, a+blockSize, b); a = b; b += 2*blockSize }`
followed by `if m := a + blockSize; m < n { symMerge(data, a, m, n) }`;
count convention as in `stableBlocks` (the block start advances by
`2*blockSize ≥ 40` each trip). -/
def mergeBlocks {α : Type} (cmp : α → α → Option Bool) (n bs : Nat) :
    Nat → Nat → Nat → List α → Option (List α)
  | 0, a, _, d =>
    if a + bs < n then symMergeGo cmp (n - a) d a (a + bs) n else some d
  | cnt + 1, a, b, d =>
    if b ≤ n then
      match symMergeGo cmp (b - a) d a (a + bs) b with
      | none => none
      | some d2 => mergeBlocks cmp n bs cnt b (b + 2 * bs) d2
    else if a + bs < n then symMergeGo cmp (n - a) d a (a + bs) n else some d

/-- Outer loop of the merging phase of `stable`:
`for blockSize < n { ...; blockSize *= 2 }`; the count starts at `n + 1`,
which bounds the trip count (the block size doubles from 20 each round). -/
def mergeAll {α : Type} (cmp : α → α → Option Bool) (n : Nat) :
    Nat → Nat → List α → Option (List α)
  | 0, _, d => some d
  | cnt + 1, bs, d =>
    if bs < n then
      match mergeBlocks cmp n bs (n + 1) 0 (2 * bs) d with
      | none => none
      | some d2 => mergeAll cmp n cnt (2 * bs) d2
    else some d

/-- `sort.SliceStable`: `stable(data, n)` — insertion sort on blocks of 20,
then the merging rounds. -/
def sliceStable {α : Type} (cmp : α → α → Option Bool) (l : List α) :
    Option (List α) :=
  match stableBlocks cmp l.length (l.length + 1) 0 20 l with
  | none => none
  | some d => mergeAll cmp l.length (l.length + 1) 20 d

/-- Models `sortDecls` (`none` = the run panics inside the comparator). -/
def sortDecls (decls : List Decl) : Option (List Decl) := sliceStable cmpAdj decls

/-- Models `sortFieldList` on the `List` of the field list. -/
def sortFieldList (fields : List Field) : Option (List Field) :=
  sliceStable cmpField fields

/-- Index-tagged variant of `sortDecls`: the same sort run on the input
paired with original positions (the comparator ignores the tags), used to
state order-preservation properties. -/
def sortDeclsE (l : List Decl) : Option (List (Nat × Decl)) :=
  sliceStable (fun a b => cmpAdj a.2 b.2) l.enum

/-- Index-tagged variant of `sortFieldList`. -/
def sortFieldListE (l : List Field) : Option (List (Nat × Field)) :=
  sliceStable (fun a b => cmpField a.2 b.2) l.enum

/-! Order-theoretic facts about the executable string comparison `ltS` and
the derived key comparison `keyLt` used to analyse the sort. -/

/-- The comparison `ltL` is irreflexive. -/
theorem ltL_irrefl : ∀ l : List Char, ltL l l = false := by
  intro l
  induction l with
  | nil => rfl
  | cons a as ih =>
    rw [ltL, if_neg (by omega), if_neg (by omega)]
    exact ih

/-- The comparison `ltL` is asymmetric. -/
theorem ltL_asymm : ∀ l1 l2 : List Char, ltL l1 l2 = true → ltL l2 l1 = false := by
  intro l1
  induction l1 with
  | nil =>
    intro l2 h
    cases l2 with
    | nil => exact absurd h (by decide)
    | cons b bs => rfl
  | cons a as ih =>
    intro l2 h
    cases l2 with
    | nil => cases h
    | cons b bs =>
      rw [ltL] at h ⊢
      by_cases hab : a.toNat < b.toNat
      · rw [if_neg (by omega), if_pos (by omega)]
      · rw [if_neg hab] at h
        by_cases hba : b.toNat < a.toNat
        · rw [if_pos hba] at h
          cases h
        · rw [if_neg hba] at h
          rw [if_neg (by omega), if_neg (by omega)]
          exact ih bs h

/-- The comparison `ltL` is transitive. -/
theorem ltL_trans : ∀ l1 l2 l3 : List Char,
    ltL l1 l2 = true → ltL l2 l3 = true → ltL l1 l3 = true := by
  intro l1
  induction l1 with
  | nil =>
    intro l2 l3 h1 h2
    cases l3 with
    | nil =>
      cases l2 with
      | nil => exact h1
      | cons b bs => cases h2
    | cons c cs => rfl
  | cons a as ih =>
    intro l2 l3 h1 h2
    cases l2 with
    | nil => cases h1
    | cons b bs =>
      cases l3 with
      | nil => cases h2
      | cons c cs =>
        rw [ltL] at h1 h2 ⊢
        by_cases hab : a.toNat < b.toNat
        · by_cases hbc : b.toNat < c.toNat
          · rw [if_pos (by omega)]
          · rw [if_neg hbc] at h2
            by_cases hcb : c.toNat < b.toNat
            · rw [if_pos hcb] at h2
              cases h2
            · rw [if_pos (by omega)]
        · rw [if_neg hab] at h1
          by_cases hba : b.toNat < a.toNat
          · rw [if_pos hba] at h1
            cases h1
          · rw [if_neg hba] at h1
            by_cases hbc : b.toNat < c.toNat
            · rw [if_pos (by omega)]
            · rw [if_neg hbc] at h2
              by_cases hcb : c.toNat < b.toNat
              · rw [if_pos hcb] at h2
                cases h2
              · rw [if_neg hcb] at h2
                rw [if_neg (by omega), if_neg (by omega)]
                exact ih bs cs h1 h2

/-- Two lists that compare `false` both ways are equal. -/
theorem ltL_eq_of : ∀ l1 l2 : List Char,
    ltL l1 l2 = false → ltL l2 l1 = false → l1 = l2 := by
  intro l1
  induction l1 with
  | nil =>
    intro l2 h1 _
    cases l2 with
    | nil => rfl
    | cons b bs => cases h1
  | cons a as ih =>
    intro l2 h1 h2
    cases l2 with
    | nil => cases h2
    | cons b bs =>
      rw [ltL] at h1 h2
      by_cases hab : a.toNat < b.toNat
      · rw [if_pos hab] at h1
        cases h1
      · by_cases hba : b.toNat < a.toNat
        · rw [if_pos hba] at h2
          cases h2
        · rw [if_neg hab, if_neg hba] at h1
          rw [if_neg hba, if_neg hab] at h2
          have hn : a.toNat = b.toNat := by omega
          have hc : a = b := Char.eq_of_val_eq (UInt32.toNat.inj hn)
          rw [hc, ih bs h1 h2]

/-- The string comparison `ltS` is irreflexive. -/
theorem ltS_irrefl (s : String) : ltS s s = false := ltL_irrefl s.data

/-- The string comparison `ltS` is asymmetric. -/
theorem ltS_asymm {s t : String} (h : ltS s t = true) : ltS t s = false :=
  ltL_asymm s.data t.data h

/-- The string comparison `ltS` is transitive. -/
theorem ltS_trans {s t u : String} (h1 : ltS s t = true) (h2 : ltS t u = true) :
    ltS s u = true :=
  ltL_trans s.data t.data u.data h1 h2

/-- Two strings that compare `false` both ways are equal. -/
theorem ltS_eq_of {s t : String} (h1 : ltS s t = false) (h2 : ltS t s = false) : s = t := by
  cases s with
  | mk ds =>
    cases t with
    | mk dt =>
      have h := ltL_eq_of ds dt h1 h2
      rw [h]

/-- Key order used to analyse `sortDecls`: a weight and a grouping string,
compared lexicographically with `ltS` on the string component. -/
def keyLt (a b : Int × String) : Bool :=
  if a.1 = b.1 then ltS a.2 b.2 else decide (a.1 < b.1)

/-- The key order is irreflexive. -/
theorem keyLt_irrefl (a : Int × String) : keyLt a a = false := by
  rw [keyLt, if_pos rfl]
  exact ltS_irrefl a.2

/-- The key order is asymmetric. -/
theorem keyLt_asymm {a b : Int × String} (h : keyLt a b = true) : keyLt b a = false := by
  rw [keyLt] at h ⊢
  by_cases hw : a.1 = b.1
  · rw [if_pos hw] at h
    rw [if_pos hw.symm]
    exact ltS_asymm h
  · rw [if_neg hw] at h
    rw [if_neg (fun hh => hw hh.symm)]
    simp only [decide_eq_true_eq] at h
    simp only [decide_eq_false_iff_not]
    omega

/-- The key order is transitive. -/
theorem keyLt_trans {a b c : Int × String} (h1 : keyLt a b = true) (h2 : keyLt b c = true) :
    keyLt a c = true := by
  rw [keyLt] at h1 h2 ⊢
  by_cases hab : a.1 = b.1
  · rw [if_pos hab] at h1
    by_cases hbc : b.1 = c.1
    · rw [if_pos hbc] at h2
      rw [if_pos (hab.trans hbc)]
      exact ltS_trans h1 h2
    · rw [if_neg hbc] at h2
      simp only [decide_eq_true_eq] at h2
      rw [if_neg (by omega)]
      simp only [decide_eq_true_eq]
      omega
  · rw [if_neg hab] at h1
    simp only [decide_eq_true_eq] at h1
    by_cases hbc : b.1 = c.1
    · rw [if_neg (by omega)]
      simp only [decide_eq_true_eq]
      omega
    · rw [if_neg hbc] at h2
      simp only [decide_eq_true_eq] at h2
      rw [if_neg (by omega)]
      simp only [decide_eq_true_eq]
      omega

/-- Keys that compare `false` both ways are equal. -/
theorem keyLt_eq_of {a b : Int × String} (h1 : keyLt a b = false) (h2 : keyLt b a = false) :
    a = b := by
  rw [keyLt] at h1 h2
  by_cases hab : a.1 = b.1
  · rw [if_pos hab] at h1
    rw [if_pos hab.symm] at h2
    have h := ltS_eq_of h1 h2
    cases a
    cases b
    simp only at hab h
    rw [hab, h]
  · rw [if_neg hab] at h1
    rw [if_neg (fun hh => hab hh.symm)] at h2
    simp only [decide_eq_false_iff_not] at h1 h2
    omega

/-- Negative transitivity of the key order, in the form used for sortedness:
the reflexive complement relation is transitive. -/
theorem keyLt_le_trans {a b c : Int × String}
    (h1 : keyLt b a = false) (h2 : keyLt c b = false) : keyLt c a = false := by
  by_cases hca : keyLt c a = true
  · by_cases hba : keyLt a b = true
    · have := keyLt_trans hca hba
      rw [this] at h2
      cases h2
    · have hab : a = b := keyLt_eq_of (by
        cases hh : keyLt a b
        · rfl
        · exact absurd hh hba) h1
      rw [← hab] at h2
      rw [hca] at h2
      cases h2
  · cases hh : keyLt c a
    · rfl
    · exact absurd hh hca

/-! Facts about `splitChars` and `splitOnDot`. -/

/-- Joining with a separator, the left inverse of `splitChars`. -/
def joinSep (sep : Char) : List (List Char) → List Char
  | [] => []
  | a :: rest =>
    match rest with
    | [] => a
    | _ :: _ => a ++ sep :: joinSep sep rest

/-- Splitting always yields at least one component. -/
theorem splitChars_ne_nil (sep : Char) (cs : List Char) : splitChars sep cs ≠ [] := by
  cases cs with
  | nil => simp [splitChars]
  | cons c rest =>
    rw [splitChars]
    by_cases h : c = sep
    · rw [if_pos h]
      simp
    · rw [if_neg h]
      cases hs : splitChars sep rest with
      | nil => simp
      | cons a t => simp

/-- Splitting a list not containing the separator yields that single component. -/
theorem splitChars_not_mem (sep : Char) (cs : List Char) (h : sep ∉ cs) :
    splitChars sep cs = [cs] := by
  induction cs with
  | nil => rfl
  | cons c rest ih =>
    rw [splitChars, if_neg (fun hc => h (List.mem_cons.2 (Or.inl hc.symm)))]
    rw [ih (fun hm => h (List.mem_cons_of_mem c hm))]

/-- Splitting a list around its first separator occurrence. -/
theorem splitChars_append (sep : Char) (as bs : List Char) (h : sep ∉ as) :
    splitChars sep (as ++ sep :: bs) = as :: splitChars sep bs := by
  induction as with
  | nil =>
    rw [List.nil_append, splitChars, if_pos rfl]
  | cons a as ih =>
    rw [List.cons_append, splitChars,
      if_neg (fun hc => h (List.mem_cons.2 (Or.inl hc.symm))),
      ih (fun hm => h (List.mem_cons_of_mem a hm))]

/-- The number of components is the separator count plus one. -/
theorem splitChars_length (sep : Char) (cs : List Char) :
    (splitChars sep cs).length = cs.count sep + 1 := by
  induction cs with
  | nil => rfl
  | cons c rest ih =>
    rw [splitChars]
    by_cases h : c = sep
    · rw [if_pos h]
      simp only [List.length_cons, List.count_cons, h]
      simp [ih]
    · rw [if_neg h]
      cases hs : splitChars sep rest with
      | nil => exact absurd hs (splitChars_ne_nil sep rest)
      | cons a t =>
        rw [hs] at ih
        simp only [List.length_cons] at ih
        simp only [List.length_cons, List.count_cons]
        have hne : (c == sep) = false := by
          simp only [beq_eq_false_iff_ne, ne_eq]
          exact h
        rw [hne]
        simp only [Bool.false_eq_true, if_false]
        omega

/-- No component of a split contains the separator. -/
theorem splitChars_comp_not_mem (sep : Char) (cs : List Char) :
    ∀ comp ∈ splitChars sep cs, sep ∉ comp := by
  induction cs with
  | nil =>
    intro comp hc
    rw [splitChars, List.mem_singleton] at hc
    rw [hc]
    exact List.not_mem_nil sep
  | cons c rest ih =>
    intro comp hc
    rw [splitChars] at hc
    by_cases h : c = sep
    · rw [if_pos h] at hc
      rcases List.mem_cons.1 hc with h0 | h0
      · simp [h0]
      · exact ih comp h0
    · rw [if_neg h] at hc
      cases hs : splitChars sep rest with
      | nil => exact absurd hs (splitChars_ne_nil sep rest)
      | cons a t =>
        rw [hs] at hc
        rcases List.mem_cons.1 hc with h0 | h0
        · rw [h0]
          intro hmem
          rcases List.mem_cons.1 hmem with h1 | h1
          · exact h h1.symm
          · exact ih a (hs ▸ List.mem_cons_self a t) h1
        · exact ih comp (hs ▸ List.mem_cons_of_mem a h0)

/-- Joining undoes splitting. -/
theorem joinSep_splitChars (sep : Char) (cs : List Char) :
    joinSep sep (splitChars sep cs) = cs := by
  induction cs with
  | nil => rfl
  | cons c rest ih =>
    rw [splitChars]
    by_cases h : c = sep
    · rw [if_pos h]
      cases hs : splitChars sep rest with
      | nil => exact absurd hs (splitChars_ne_nil sep rest)
      | cons a t =>
        rw [hs] at ih
        rw [joinSep]
        simp only [List.nil_append]
        rw [ih, h]
    · rw [if_neg h]
      cases hs : splitChars sep rest with
      | nil => exact absurd hs (splitChars_ne_nil sep rest)
      | cons a t =>
        rw [hs] at ih
        cases t with
        | nil =>
          rw [joinSep] at ih ⊢
          rw [ih]
        | cons b t2 =>
          rw [joinSep] at ih ⊢
          rw [List.cons_append, ih]

/-- A string is its character data. -/
theorem mk_data (s : String) : String.mk s.data = s := by
  cases s
  rfl

/-- Strings with equal data are equal. -/
theorem string_ext (s t : String) (h : s.data = t.data) : s = t := by
  cases s
  cases t
  simp only at h
  rw [h]

/-- Data of the one-dot join. -/
theorem data_dot_append (a b : String) :
    (a ++ "." ++ b).data = a.data ++ '.' :: b.data := by
  rw [String.data_append, String.data_append, List.append_assoc]
  rfl

/-- Splitting the one-dot join of two dot-free strings recovers them. -/
theorem splitOnDot_append (a b : String) (ha : countDots a = 0) (hb : countDots b = 0) :
    splitOnDot (a ++ "." ++ b) = some (a, b) := by
  have hna : '.' ∉ a.data := List.count_eq_zero.1 ha
  have hnb : '.' ∉ b.data := List.count_eq_zero.1 hb
  rw [splitOnDot, data_dot_append, splitChars_append '.' a.data b.data hna,
    splitChars_not_mem '.' b.data hnb]
  simp only [List.map_cons, List.map_nil, mk_data]

/-- Splitting a dot-free string gives an empty receiver and the string. -/
theorem splitOnDot_dotfree (s : String) (h : countDots s = 0) :
    splitOnDot s = some ("", s) := by
  have hn : '.' ∉ s.data := List.count_eq_zero.1 h
  rw [splitOnDot, splitChars_not_mem '.' s.data hn]
  simp only [List.map_cons, List.map_nil]

/-- The split panics exactly when there are at least two dots. -/
theorem splitOnDot_none_iff (s : String) : splitOnDot s = none ↔ 2 ≤ countDots s := by
  have hlen := splitChars_length '.' s.data
  rw [splitOnDot]
  cases hs : splitChars '.' s.data with
  | nil => exact absurd hs (splitChars_ne_nil '.' s.data)
  | cons a t =>
    rw [hs] at hlen
    cases t with
    | nil =>
      simp only [List.map_cons, List.map_nil]
      constructor
      · intro h
        cases h
      · intro h
        simp only [List.length_cons, List.length_nil] at hlen
        rw [countDots] at h
        omega
    | cons b t2 =>
      cases t2 with
      | nil =>
        simp only [List.map_cons, List.map_nil]
        constructor
        · intro h
          cases h
        · intro h
          simp only [List.length_cons, List.length_nil] at hlen
          rw [countDots] at h
          omega
      | cons c t3 =>
        simp only [List.map_cons]
        constructor
        · intro _
          simp only [List.length_cons] at hlen
          rw [countDots]
          omega
        · intro _
          trivial

/-- Characterisation of a successful split: both components are dot-free and
the input is either the single dot-free component or the one-dot join. -/
theorem splitOnDot_some (s r n : String) (h : splitOnDot s = some (r, n)) :
    countDots r = 0 ∧ countDots n = 0 ∧ ((r = "" ∧ n = s) ∨ s = r ++ "." ++ n) := by
  have hcomp := splitChars_comp_not_mem '.' s.data
  have hjoin := joinSep_splitChars '.' s.data
  rw [splitOnDot] at h
  cases hs : splitChars '.' s.data with
  | nil => exact absurd hs (splitChars_ne_nil '.' s.data)
  | cons a t =>
    rw [hs] at h hcomp hjoin
    cases t with
    | nil =>
      simp only [List.map_cons, List.map_nil, Option.some.injEq, Prod.mk.injEq] at h
      obtain ⟨h1, h2⟩ := h
      have hna : '.' ∉ a := hcomp a (List.mem_cons_self a [])
      rw [joinSep] at hjoin
      refine ⟨?_, ?_, Or.inl ⟨h1.symm, h2.symm⟩⟩
      · rw [← h1]
        rfl
      · rw [← h2, countDots, List.count_eq_zero]
        rw [← hjoin]
        exact hna
    | cons b t2 =>
      cases t2 with
      | nil =>
        simp only [List.map_cons, List.map_nil, Option.some.injEq, Prod.mk.injEq] at h
        obtain ⟨h1, h2⟩ := h
        have hna : '.' ∉ a := hcomp a (List.mem_cons_self a [b])
        have hnb : '.' ∉ b := hcomp b (List.mem_cons_of_mem a (List.mem_cons_self b []))
        have hra : r.data = a := by rw [← h1]
        have hnd : n.data = b := by rw [← h2]
        rw [joinSep, joinSep] at hjoin
        refine ⟨?_, ?_, Or.inr ?_⟩
        · rw [countDots, hra, List.count_eq_zero]
          exact hna
        · rw [countDots, hnd, List.count_eq_zero]
          exact hnb
        · apply string_ext
          rw [data_dot_append, hra, hnd, ← hjoin]
      | cons c t3 =>
        simp only [List.map_cons] at h
        cases h

/-! Generic facts about the insertion sort `isort`. -/

/-- Characterisation of one bubbling pass: the reversed prefix splits as
`p ++ q`, where `p` is the block of neighbours `x` passed (each compared
`some true`) and `x` stops in front of `q`, whose head (if any) compared
`some false`. -/
theorem insGo_spec {α : Type} (cmp : α → α → Option Bool) (x : α) :
    ∀ racc r, insGo cmp x racc = some r →
    ∃ p q, racc = p ++ q ∧ r = p ++ x :: q ∧ (∀ z ∈ p, cmp x z = some true) ∧
      ∀ y qs, q = y :: qs → cmp x y = some false := by
  intro racc
  induction racc with
  | nil =>
    intro r h
    rw [insGo] at h
    simp only [Option.some.injEq] at h
    refine ⟨[], [], rfl, by rw [← h, List.nil_append], ?_, ?_⟩
    · intro z hz
      cases hz
    · intro y qs hq
      cases hq
  | cons y ys ih =>
    intro r h
    rw [insGo] at h
    cases hc : cmp x y with
    | none =>
      rw [hc] at h
      cases h
    | some b =>
      rw [hc] at h
      cases b with
      | true =>
        cases hi : insGo cmp x ys with
        | none =>
          rw [hi] at h
          cases h
        | some r2 =>
          rw [hi] at h
          simp only [Option.some.injEq] at h
          obtain ⟨p, q, hpq, hr2, hp, hq⟩ := ih r2 hi
          refine ⟨y :: p, q, ?_, ?_, ?_, hq⟩
          · rw [List.cons_append, ← hpq]
          · rw [← h, hr2, List.cons_append]
          · intro z hz
            rcases List.mem_cons.1 hz with h0 | h0
            · rw [h0]
              exact hc
            · exact hp z h0
      | false =>
        simp only [Option.some.injEq] at h
        refine ⟨[], y :: ys, rfl, by rw [← h]; rfl, ?_, ?_⟩
        · intro z hz
          cases hz
        · intro z qs hz
          rw [List.cons.injEq] at hz
          rw [← hz.1]
          exact hc

/-- A bubbling pass preserves every sublist of the reversed prefix. -/
theorem insGo_sub {α : Type} {cmp : α → α → Option Bool} {x : α} {racc r : List α}
    (h : insGo cmp x racc = some r) {u : List α} (hu : u.Sublist racc) : u.Sublist r := by
  obtain ⟨p, q, hpq, hr, _, _⟩ := insGo_spec cmp x racc r h
  rw [hr]
  rw [hpq] at hu
  exact hu.trans (List.Sublist.append_left ((List.sublist_cons_self x q)) p)

/-- A bubbling pass inserts exactly `x`. -/
theorem insGo_perm {α : Type} {cmp : α → α → Option Bool} {x : α} {racc r : List α}
    (h : insGo cmp x racc = some r) : r.Perm (x :: racc) := by
  obtain ⟨p, q, hpq, hr, _, _⟩ := insGo_spec cmp x racc r h
  rw [hr, hpq]
  exact List.perm_middle

/-- Membership after a bubbling pass. -/
theorem insGo_mem {α : Type} {cmp : α → α → Option Bool} {x : α} {racc r : List α}
    (h : insGo cmp x racc = some r) {a : α} (ha : a ∈ racc) : a ∈ r :=
  (insGo_perm h).mem_iff.2 (List.mem_cons_of_mem x ha)

/-- The sorting loop permutes its input. -/
theorem isortGo_perm {α : Type} (cmp : α → α → Option Bool) :
    ∀ (rest racc r : List α), isortGo cmp racc rest = some r →
    r.Perm (racc.reverse ++ rest) := by
  intro rest
  induction rest with
  | nil =>
    intro racc r h
    rw [isortGo] at h
    simp only [Option.some.injEq] at h
    rw [← h, List.append_nil]
  | cons x xs ih =>
    intro racc r h
    rw [isortGo] at h
    cases hi : insGo cmp x racc with
    | none =>
      rw [hi] at h
      cases h
    | some racc2 =>
      rw [hi] at h
      have h1 := ih racc2 r h
      have h2 : racc2.Perm (x :: racc) := insGo_perm hi
      have h3 : racc2.reverse.Perm (x :: racc) := racc2.reverse_perm.trans h2
      have hA : r.Perm (x :: (racc ++ xs)) :=
        h1.trans (List.Perm.append h3 (List.Perm.refl xs))
      have hB : (racc.reverse ++ x :: xs).Perm (x :: (racc ++ xs)) :=
        List.Perm.trans List.perm_middle
          (List.Perm.cons x (List.Perm.append racc.reverse_perm (List.Perm.refl xs)))
      exact hA.trans hB.symm

/-- Top-level permutation fact for `isort`. -/
theorem isort_perm {α : Type} {cmp : α → α → Option Bool} {l r : List α}
    (h : isort cmp l = some r) : r.Perm l := by
  have := isortGo_perm cmp l [] r h
  simpa using this

/-- Reversal of the split produced by `insGo_spec`. -/
theorem rev_split {α : Type} (p q : List α) (x : α) :
    (p ++ x :: q).reverse = q.reverse ++ x :: p.reverse := by
  rw [List.reverse_append, List.reverse_cons, List.append_assoc]
  rfl

/-- No-pass property of the sorting loop: an element never moves in front of
an earlier element unless a direct comparison of the two values returns
`some true`. -/
theorem isortGo_nopass {α : Type} (cmp : α → α → Option Bool) (a b : α)
    (hcmp : cmp b a ≠ some true) :
    ∀ (rest racc r : List α), isortGo cmp racc rest = some r →
    [a, b].Sublist (racc.reverse ++ rest) → [a, b].Sublist r := by
  intro rest
  induction rest with
  | nil =>
    intro racc r h hone
    rw [isortGo] at h
    simp only [Option.some.injEq] at h
    rw [← h]
    simpa using hone
  | cons x xs ih =>
    intro racc r h hone
    rw [isortGo] at h
    cases hi : insGo cmp x racc with
    | none =>
      rw [hi] at h
      cases h
    | some racc2 =>
      rw [hi] at h
      refine ih racc2 r h ?_
      obtain ⟨l₁, l₂, heq, hs1, hs2⟩ := List.sublist_append_iff.1 hone
      obtain ⟨p, q, hpq, hr, hp, hq⟩ := insGo_spec cmp x racc racc2 hi
      have hrev : racc2.reverse = q.reverse ++ x :: p.reverse := by
        rw [hr, rev_split]
      rcases l₁ with _ | ⟨c, _ | ⟨d, _ | ⟨e, t⟩⟩⟩
      · -- both elements still among the unprocessed
        simp only [List.nil_append] at heq
        rw [← heq] at hs2
        cases hs2 with
        | cons _ htail =>
          exact htail.trans (List.sublist_append_right racc2.reverse xs)
        | cons₂ _ htail =>
          have hx2 : a ∈ racc2.reverse := by
            rw [List.mem_reverse]
            exact (insGo_perm hi).mem_iff.2 (List.mem_cons_self a racc)
          have h1 : [a].Sublist racc2.reverse := List.singleton_sublist.2 hx2
          have h2 : [b].Sublist xs := htail
          exact h1.append h2
      · -- the earlier element is processed, the later is not
        simp only [List.cons_append, List.nil_append, List.cons.injEq] at heq
        obtain ⟨hca, hl2⟩ := heq
        rw [← hl2] at hs2
        rw [← hca] at hs1
        have hamem : a ∈ racc := List.mem_reverse.1 (List.singleton_sublist.1 hs1)
        rcases List.mem_cons.1 (List.singleton_sublist.1 hs2) with hbx | hbxs
        · -- the later element is the one being inserted now
          rw [hpq] at hamem
          rcases List.mem_append.1 hamem with hap | haq
          · exact absurd (hbx ▸ hp a hap) hcmp
          · have h1 : [a].Sublist q.reverse :=
              List.singleton_sublist.2 (List.mem_reverse.2 haq)
            have h2 : [b].Sublist (x :: p.reverse) :=
              List.singleton_sublist.2 (List.mem_cons.2 (Or.inl hbx))
            have := h1.append h2
            rw [← hrev] at this
            exact this.trans (List.sublist_append_left racc2.reverse xs)
        · have h1 : [a].Sublist racc2.reverse :=
            List.singleton_sublist.2 (List.mem_reverse.2 (insGo_mem hi hamem))
          have h2 : [b].Sublist xs := List.singleton_sublist.2 hbxs
          exact h1.append h2
      · -- both elements already processed
        simp only [List.cons_append, List.nil_append, List.cons.injEq] at heq
        obtain ⟨hca, hdb, hl2⟩ := heq
        rw [← hca, ← hdb] at hs1
        have hrs : [b, a].Sublist racc := by
          have := hs1.reverse
          rw [List.reverse_reverse] at this
          exact this
        have := (insGo_sub hi hrs).reverse
        have h2 : [a, b].Sublist racc2.reverse := this
        exact h2.trans (List.sublist_append_left racc2.reverse xs)
      · -- a two-element list has no longer split
        simp only [List.cons_append, List.cons.injEq] at heq
        obtain ⟨_, _, hcontra⟩ := heq
        cases t with
        | nil => cases hcontra
        | cons f t2 => cases hcontra

/-- Extracting the relation of one ordered pair from a pairwise property. -/
theorem pairwise_pair {α : Type} {R : α → α → Prop} {l : List α}
    (h : List.Pairwise R l) {u v : α} (hs : [u, v].Sublist l) : R u v := by
  have h2 := List.Pairwise.sublist hs h
  exact List.rel_of_pairwise_cons h2 (List.mem_singleton.2 rfl)

/-- One bubbling pass preserves key-sortedness of the processed prefix, for a
comparator that agrees with the key order whenever the two keys differ. -/
theorem insGo_pairwise {α : Type} (cmp : α → α → Option Bool) (key : α → Int × String)
    (x : α) (racc racc2 : List α)
    (h : insGo cmp x racc = some racc2)
    (hc : ∀ z ∈ racc, key x ≠ key z → cmp x z = some (keyLt (key x) (key z)))
    (hp : List.Pairwise (fun u v => keyLt (key v) (key u) = false) racc.reverse) :
    List.Pairwise (fun u v => keyLt (key v) (key u) = false) racc2.reverse := by
  obtain ⟨p, q, hpq, hr, hpass, hstop⟩ := insGo_spec cmp x racc racc2 h
  have hrev2 : racc2.reverse = q.reverse ++ x :: p.reverse := by rw [hr, rev_split]
  have hrev : racc.reverse = q.reverse ++ p.reverse := by
    rw [hpq, List.reverse_append]
  rw [hrev] at hp
  obtain ⟨hq_pw, hp_pw, hcr⟩ := List.pairwise_append.1 hp
  have fact1 : ∀ z ∈ p, keyLt (key z) (key x) = false := by
    intro z hz
    by_cases hk : key x = key z
    · rw [hk]
      exact keyLt_irrefl (key z)
    · have := hc z (hpq ▸ List.mem_append.2 (Or.inl hz)) hk
      rw [hpass z hz] at this
      simp only [Option.some.injEq] at this
      exact keyLt_asymm this.symm
  have fact2 : ∀ z ∈ q, keyLt (key x) (key z) = false := by
    intro z hz
    cases q with
    | nil => cases hz
    | cons y0 qs =>
      have hy0 : keyLt (key x) (key y0) = false := by
        by_cases hk : key x = key y0
        · rw [hk]
          exact keyLt_irrefl (key y0)
        · have := hc y0 (hpq ▸ List.mem_append.2 (Or.inr (List.mem_cons_self y0 qs))) hk
          rw [hstop y0 qs rfl] at this
          simp only [Option.some.injEq] at this
          exact this.symm
      rcases List.mem_cons.1 hz with hzy | hzq
      · rw [hzy]
        exact hy0
      · have hq2 : keyLt (key y0) (key z) = false := by
          have hqsp : (y0 :: qs).reverse = qs.reverse ++ [y0] := by
            rw [List.reverse_cons]
          rw [hqsp] at hq_pw
          obtain ⟨_, _, hcr2⟩ := List.pairwise_append.1 hq_pw
          exact hcr2 z (List.mem_reverse.2 hzq) y0 (List.mem_singleton.2 rfl)
        exact keyLt_le_trans hq2 hy0
  rw [hrev2]
  refine List.pairwise_append.2 ⟨hq_pw, ?_, ?_⟩
  · refine List.pairwise_cons.2 ⟨?_, hp_pw⟩
    intro v hv
    exact fact1 v (List.mem_reverse.1 hv)
  · intro u hu v hv
    rcases List.mem_cons.1 hv with hvx | hvp
    · rw [hvx]
      exact fact2 u (List.mem_reverse.1 hu)
    · exact hcr u hu v hvp

/-- The sorting loop keeps the output pairwise ordered by key whenever the
comparator agrees with the key order on elements with different keys. -/
theorem isortGo_sorted {α : Type} (cmp : α → α → Option Bool) (key : α → Int × String)
    (l₀ : List α)
    (hcross : ∀ x ∈ l₀, ∀ y ∈ l₀, key x ≠ key y → cmp x y = some (keyLt (key x) (key y))) :
    ∀ (rest racc r : List α), isortGo cmp racc rest = some r →
    (∀ z ∈ racc, z ∈ l₀) → (∀ z ∈ rest, z ∈ l₀) →
    List.Pairwise (fun u v => keyLt (key v) (key u) = false) racc.reverse →
    List.Pairwise (fun u v => keyLt (key v) (key u) = false) r := by
  intro rest
  induction rest with
  | nil =>
    intro racc r h hracc _ hp
    rw [isortGo] at h
    simp only [Option.some.injEq] at h
    rw [← h]
    exact hp
  | cons x xs ih =>
    intro racc r h hracc hrest hp
    rw [isortGo] at h
    cases hi : insGo cmp x racc with
    | none =>
      rw [hi] at h
      cases h
    | some racc2 =>
      rw [hi] at h
      have hx0 : x ∈ l₀ := hrest x (List.mem_cons_self x xs)
      refine ih racc2 r h ?_ ?_ ?_
      · intro z hz
        rcases List.mem_cons.1 ((insGo_perm hi).mem_iff.1 hz) with h0 | h0
        · rw [h0]
          exact hx0
        · exact hracc z h0
      · intro z hz
        exact hrest z (List.mem_cons_of_mem x hz)
      · exact insGo_pairwise cmp key x racc racc2 hi
          (fun z hz hk => hcross x hx0 z (hracc z hz) hk) hp

/-- Top-level sortedness fact for `isort`. -/
theorem isort_sorted {α : Type} {cmp : α → α → Option Bool} (key : α → Int × String)
    {l r : List α}
    (hcross : ∀ x ∈ l, ∀ y ∈ l, key x ≠ key y → cmp x y = some (keyLt (key x) (key y)))
    (h : isort cmp l = some r) :
    List.Pairwise (fun u v => keyLt (key v) (key u) = false) r := by
  refine isortGo_sorted cmp key l hcross l [] r h ?_ (fun z hz => hz) ?_
  · intro z hz
    cases hz
  · exact List.Pairwise.nil

/-- One step of the sorting loop, as a permutation of prefix plus rest. -/
theorem insGo_step_perm {α : Type} {cmp : α → α → Option Bool} {x : α}
    {racc racc2 : List α} (hi : insGo cmp x racc = some racc2) (xs : List α) :
    (racc2.reverse ++ xs).Perm (racc.reverse ++ x :: xs) := by
  have h3 : racc2.reverse.Perm (x :: racc) := racc2.reverse_perm.trans (insGo_perm hi)
  have hA : (racc2.reverse ++ xs).Perm (x :: (racc ++ xs)) :=
    List.Perm.append h3 (List.Perm.refl xs)
  have hB : (racc.reverse ++ x :: xs).Perm (x :: (racc ++ xs)) :=
    List.Perm.trans List.perm_middle
      (List.Perm.cons x (List.Perm.append racc.reverse_perm (List.Perm.refl xs)))
  exact hA.trans hB.symm

/-- One bubbling pass keeps a designated key-minimal element `x0` in front of
every other element of its key class. -/
theorem insGo_min {α : Type} (cmp : α → α → Option Bool) (key : α → Int × String)
    (x0 x : α) (racc racc2 : List α)
    (h : insGo cmp x racc = some racc2)
    (hc : ∀ z ∈ racc, key x ≠ key z → cmp x z = some (keyLt (key x) (key z)))
    (hminx : x ≠ x0 → key x = key x0 → cmp x x0 = some false)
    (hminx0 : x = x0 → ∀ z ∈ racc, key z = key x0 → cmp x0 z = some true)
    (hp : List.Pairwise (fun u v => keyLt (key v) (key u) = false) racc.reverse)
    (hprev : x0 ∈ racc → ∀ b ∈ racc, key b = key x0 → b ≠ x0 → [x0, b].Sublist racc.reverse) :
    x0 ∈ racc2 → ∀ b ∈ racc2, key b = key x0 → b ≠ x0 → [x0, b].Sublist racc2.reverse := by
  obtain ⟨p, q, hpq, hr, hpass, hstop⟩ := insGo_spec cmp x racc racc2 h
  have hrev2 : racc2.reverse = q.reverse ++ x :: p.reverse := by rw [hr, rev_split]
  have hrev : racc.reverse = q.reverse ++ p.reverse := by
    rw [hpq, List.reverse_append]
  by_cases hxx : x = x0
  · -- inserting the minimal element itself
    intro _ b hb hkb hbne
    rw [hxx] at hr hpass hstop hrev2
    rw [hr] at hb
    rcases List.mem_append.1 hb with hbp | hbq
    · have h1 : [x0, b].Sublist (x0 :: p.reverse) :=
        List.cons_sublist_cons.2 (List.singleton_sublist.2 (List.mem_reverse.2 hbp))
      rw [hrev2]
      exact h1.trans (List.sublist_append_right q.reverse (x0 :: p.reverse))
    · rcases List.mem_cons.1 hbq with hbx | hbq2
      · exact absurd hbx hbne
      · exfalso
        cases q with
        | nil => cases hbq2
        | cons y0 qs =>
          have hy0 : cmp x0 y0 = some false := hstop y0 qs rfl
          by_cases hk : key y0 = key x0
          · have := hminx0 hxx y0 (hpq ▸ List.mem_append.2 (Or.inr (List.mem_cons_self y0 qs))) hk
            rw [hy0] at this
            cases this
          · rcases List.mem_cons.1 hbq2 with hby | hbqs
            · exact hk (hby ▸ hkb)
            · have hcy : cmp x0 y0 = some (keyLt (key x0) (key y0)) := by
                have := hc y0 (hpq ▸ List.mem_append.2 (Or.inr (List.mem_cons_self y0 qs)))
                rw [hxx] at this
                exact this (fun he => hk he.symm)
              rw [hy0] at hcy
              simp only [Option.some.injEq] at hcy
              have hless : keyLt (key y0) (key b) = false := by
                rw [hrev] at hp
                obtain ⟨hq_pw, _, _⟩ := List.pairwise_append.1 hp
                have hqsp : (y0 :: qs).reverse = qs.reverse ++ [y0] := by
                  rw [List.reverse_cons]
                rw [hqsp] at hq_pw
                obtain ⟨_, _, hcr2⟩ := List.pairwise_append.1 hq_pw
                exact hcr2 b (List.mem_reverse.2 hbqs) y0 (List.mem_singleton.2 rfl)
              rw [hkb] at hless
              exact hk (keyLt_eq_of hless hcy.symm)
  · -- inserting some other element
    intro hx0in b hb hkb hbne
    have hx0r : x0 ∈ racc := by
      rcases List.mem_cons.1 ((insGo_perm h).mem_iff.1 hx0in) with h0 | h0
      · exact absurd h0.symm hxx
      · exact h0
    rcases List.mem_cons.1 ((insGo_perm h).mem_iff.1 hb) with hbx | hbr
    · -- the newly inserted element lies in the same class: it stays behind x0
      have hx0q : x0 ∈ q := by
        rw [hpq] at hx0r
        rcases List.mem_append.1 hx0r with h0 | h0
        · exfalso
          have h1 := hpass x0 h0
          have h2 := hminx (hbx ▸ hbne : x ≠ x0) (hbx ▸ hkb : key x = key x0)
          rw [h1] at h2
          cases h2
        · exact h0
      have h1 : [x0].Sublist q.reverse := List.singleton_sublist.2 (List.mem_reverse.2 hx0q)
      have h2 : [b].Sublist (x :: p.reverse) :=
        List.singleton_sublist.2 (List.mem_cons.2 (Or.inl hbx))
      have h3 := h1.append h2
      rw [hrev2]
      exact h3
    · -- an old pair: its order was already established
      have h1 := hprev hx0r b hbr hkb hbne
      have h2 : [b, x0].Sublist racc := by
        have := h1.reverse
        rw [List.reverse_reverse] at this
        exact this
      have h3 := (insGo_sub h h2).reverse
      exact h3

/-- The sorting loop keeps the designated key-minimal element in front of its
class, given a duplicate-free input. -/
theorem isortGo_minFirst {α : Type} (cmp : α → α → Option Bool) (key : α → Int × String)
    (l₀ : List α) (x0 : α)
    (hcross : ∀ x ∈ l₀, ∀ y ∈ l₀, key x ≠ key y → cmp x y = some (keyLt (key x) (key y)))
    (hmin : ∀ y ∈ l₀, key y = key x0 → y ≠ x0 → cmp x0 y = some true ∧ cmp y x0 = some false) :
    ∀ (rest racc r : List α), isortGo cmp racc rest = some r →
    (racc.reverse ++ rest).Nodup →
    (∀ z ∈ racc, z ∈ l₀) → (∀ z ∈ rest, z ∈ l₀) →
    List.Pairwise (fun u v => keyLt (key v) (key u) = false) racc.reverse →
    (x0 ∈ racc → ∀ b ∈ racc, key b = key x0 → b ≠ x0 → [x0, b].Sublist racc.reverse) →
    (x0 ∈ r → ∀ b ∈ r, key b = key x0 → b ≠ x0 → [x0, b].Sublist r) := by
  intro rest
  induction rest with
  | nil =>
    intro racc r h _ _ _ _ hprev
    rw [isortGo] at h
    simp only [Option.some.injEq] at h
    rw [← h]
    intro hx0 b hb
    exact hprev (List.mem_reverse.1 hx0) b (List.mem_reverse.1 hb)
  | cons x xs ih =>
    intro racc r h hnd hracc hrest hp hprev
    rw [isortGo] at h
    cases hi : insGo cmp x racc with
    | none =>
      rw [hi] at h
      cases h
    | some racc2 =>
      rw [hi] at h
      have hx0 : x ∈ l₀ := hrest x (List.mem_cons_self x xs)
      have hxnotr : x ∉ racc := by
        intro hmem
        obtain ⟨_, _, hdisj⟩ := List.nodup_append.1 hnd
        exact hdisj (List.mem_reverse.2 hmem) (List.mem_cons_self x xs)
      refine ih racc2 r h ?_ ?_ ?_ ?_ ?_
      · exact ((insGo_step_perm hi xs).nodup_iff).2 hnd
      · intro z hz
        rcases List.mem_cons.1 ((insGo_perm hi).mem_iff.1 hz) with h0 | h0
        · rw [h0]
          exact hx0
        · exact hracc z h0
      · intro z hz
        exact hrest z (List.mem_cons_of_mem x hz)
      · exact insGo_pairwise cmp key x racc racc2 hi
          (fun z hz hk => hcross x hx0 z (hracc z hz) hk) hp
      · exact insGo_min cmp key x0 x racc racc2 hi
          (fun z hz hk => hcross x hx0 z (hracc z hz) hk)
          (fun hne hk => (hmin x hx0 hk hne).2)
          (fun hxx z hz hk =>
            (hmin z (hracc z hz) hk (fun hzx0 => hxnotr (by rw [hzx0, ← hxx] at hz; exact hz))).1)
          hp hprev

/-- Top-level minimal-element fact for `isort`. -/
theorem isort_minFirst {α : Type} {cmp : α → α → Option Bool} (key : α → Int × String)
    {l r : List α} (x0 : α) (hnd : l.Nodup)
    (hcross : ∀ x ∈ l, ∀ y ∈ l, key x ≠ key y → cmp x y = some (keyLt (key x) (key y)))
    (hmin : ∀ y ∈ l, key y = key x0 → y ≠ x0 → cmp x0 y = some true ∧ cmp y x0 = some false)
    (h : isort cmp l = some r) :
    x0 ∈ r → ∀ b ∈ r, key b = key x0 → b ≠ x0 → [x0, b].Sublist r := by
  refine isortGo_minFirst cmp key l x0 hcross hmin l [] r h (by simpa using hnd) ?_
    (fun z hz => hz) List.Pairwise.nil ?_
  · intro z hz
    cases hz
  · intro hz
    cases hz

/-- One bubbling pass keeps adjacent pairs non-inverted, for an asymmetric
comparator. -/
theorem insGo_chain {α : Type} (cmp : α → α → Option Bool)
    (hasym : ∀ x y, cmp x y = some true → cmp y x ≠ some true)
    (x : α) (racc racc2 : List α) (h : insGo cmp x racc = some racc2)
    (hch : List.Chain' (fun u v => cmp v u ≠ some true) racc.reverse) :
    List.Chain' (fun u v => cmp v u ≠ some true) racc2.reverse := by
  obtain ⟨p, q, hpq, hr, hpass, hstop⟩ := insGo_spec cmp x racc racc2 h
  have hrev2 : racc2.reverse = q.reverse ++ x :: p.reverse := by rw [hr, rev_split]
  have hrev : racc.reverse = q.reverse ++ p.reverse := by
    rw [hpq, List.reverse_append]
  rw [hrev] at hch
  obtain ⟨hq_ch, hp_ch, _⟩ := List.chain'_append.1 hch
  rw [hrev2]
  refine List.chain'_append.2 ⟨hq_ch, ?_, ?_⟩
  · refine List.chain'_cons'.2 ⟨?_, hp_ch⟩
    intro y hy
    have hyp : y ∈ p := by
      rw [← List.mem_reverse]
      exact List.mem_of_mem_head? hy
    exact hasym x y (hpass y hyp)
  · intro u hu v hv
    rw [List.head?_cons, Option.mem_def, Option.some.injEq] at hv
    rw [List.getLast?_reverse] at hu
    cases q with
    | nil => cases hu
    | cons y0 qs =>
      rw [List.head?_cons, Option.mem_def, Option.some.injEq] at hu
      rw [← hv, ← hu, hstop y0 qs rfl]
      intro hcontra
      cases hcontra

/-- The sorting loop keeps adjacent pairs non-inverted, for an asymmetric
comparator. -/
theorem isortGo_adjacent {α : Type} (cmp : α → α → Option Bool)
    (hasym : ∀ x y, cmp x y = some true → cmp y x ≠ some true) :
    ∀ (rest racc r : List α), isortGo cmp racc rest = some r →
    List.Chain' (fun u v => cmp v u ≠ some true) racc.reverse →
    List.Chain' (fun u v => cmp v u ≠ some true) r := by
  intro rest
  induction rest with
  | nil =>
    intro racc r h hch
    rw [isortGo] at h
    simp only [Option.some.injEq] at h
    rw [← h]
    exact hch
  | cons x xs ih =>
    intro racc r h hch
    rw [isortGo] at h
    cases hi : insGo cmp x racc with
    | none =>
      rw [hi] at h
      cases h
    | some racc2 =>
      rw [hi] at h
      exact ih racc2 r h (insGo_chain cmp hasym x racc racc2 hi hch)

/-- Top-level adjacency fact for `isort`. -/
theorem isort_adjacent {α : Type} {cmp : α → α → Option Bool}
    (hasym : ∀ x y, cmp x y = some true → cmp y x ≠ some true)
    {l r : List α} (h : isort cmp l = some r) :
    List.Chain' (fun u v => cmp v u ≠ some true) r :=
  isortGo_adjacent cmp hasym l [] r h List.chain'_nil

/-- A bubbling pass commutes with mapping, for a comparator that only looks
at the image. -/
theorem insGo_map {α β : Type} (f : α → β) (cmp : β → β → Option Bool) (x : α) :
    ∀ racc : List α,
    insGo cmp (f x) (racc.map f) =
      (insGo (fun a b => cmp (f a) (f b)) x racc).map (List.map f) := by
  intro racc
  induction racc with
  | nil => rfl
  | cons y ys ih =>
    simp only [List.map_cons]
    rw [insGo, insGo]
    cases hc : cmp (f x) (f y) with
    | none => rfl
    | some b =>
      cases b with
      | true =>
        rw [ih]
        cases hi : insGo (fun a b => cmp (f a) (f b)) x ys with
        | none => rfl
        | some r => rfl
      | false => rfl

/-- The sorting loop commutes with mapping, for a comparator that only looks
at the image. -/
theorem isortGo_map {α β : Type} (f : α → β) (cmp : β → β → Option Bool) :
    ∀ (rest racc : List α),
    isortGo cmp (racc.map f) (rest.map f) =
      (isortGo (fun a b => cmp (f a) (f b)) racc rest).map (List.map f) := by
  intro rest
  induction rest with
  | nil =>
    intro racc
    simp only [List.map_nil]
    rw [isortGo, isortGo]
    simp only [Option.map_some']
    rw [List.map_reverse]
  | cons x xs ih =>
    intro racc
    simp only [List.map_cons]
    rw [isortGo, isortGo, insGo_map]
    cases hi : insGo (fun a b => cmp (f a) (f b)) x racc with
    | none => rfl
    | some racc2 =>
      simp only [Option.map_some']
      exact ih racc2

/-- The plain insertion sort is the projection of the index-tagged one. -/
theorem isort_decls_proj (l : List Decl) :
    isort cmpAdj l =
      (isort (fun a b : Nat × Decl => cmpAdj a.2 b.2) l.enum).map
        (List.map Prod.snd) := by
  rw [isort, isort]
  have h : l = l.enum.map Prod.snd := (List.enum_map_snd l).symm
  conv_lhs => rw [h]
  have h2 := isortGo_map Prod.snd cmpAdj l.enum ([] : List (Nat × Decl))
  simpa using h2

/-- The plain field insertion sort is the projection of the index-tagged
one. -/
theorem isort_fields_proj (l : List Field) :
    isort cmpField l =
      (isort (fun a b : Nat × Field => cmpField a.2 b.2) l.enum).map
        (List.map Prod.snd) := by
  rw [isort, isort]
  have h : l = l.enum.map Prod.snd := (List.enum_map_snd l).symm
  conv_lhs => rw [h]
  have h2 := isortGo_map Prod.snd cmpField l.enum ([] : List (Nat × Field))
  simpa using h2

/-! ### `sliceStable` coincides with `isort` on at most 20 elements

Go runs pure insertion sort on a slice of at most 20 elements (the block
loop degenerates to a single `insertionSort(data, 0, n)` and the merging
rounds are skipped), and the imperative insertion sort is the functional
one. -/

/-- Reading just past a prefix. -/
theorem getAt_append {α : Type} (A : List α) (z : α) (T : List α) :
    getAt (A ++ z :: T) A.length = some z := by
  induction A with
  | nil => rfl
  | cons a A ih =>
    simp only [List.cons_append, List.length_cons, getAt]
    exact ih

/-- Reading one further past a prefix. -/
theorem getAt_append_succ {α : Type} (A : List α) (z w : α) (T : List α) :
    getAt (A ++ z :: w :: T) (A.length + 1) = some w := by
  have h := getAt_append (A ++ [z]) w T
  simpa [List.append_assoc] using h

/-- `swapL` commutes with an untouched head. -/
theorem swapL_cons {α : Type} (a : α) (l : List α) (i j : Nat) :
    swapL (a :: l) (i + 1) (j + 1) = a :: swapL l i j := by
  unfold swapL
  simp only [getAt]
  cases h1 : getAt l i <;> cases h2 : getAt l j <;> simp [h1, h2, List.set]

/-- Effect of the adjacent swap performed by the insertion-sort inner
loop. -/
theorem swapL_adj {α : Type} (A : List α) (y x : α) (T : List α) :
    swapL (A ++ y :: x :: T) (A.length + 1) A.length = A ++ x :: y :: T := by
  induction A with
  | nil => rfl
  | cons a A ih =>
    have h : swapL (a :: (A ++ y :: x :: T)) (A.length + 1 + 1) (A.length + 1)
        = a :: swapL (A ++ y :: x :: T) (A.length + 1) A.length :=
      swapL_cons a _ _ _
    simp only [List.cons_append, List.length_cons]
    rw [h, ih]

/-- A successful bubbling pass lengthens the prefix by one. -/
theorem insGo_length {α : Type} {cmp : α → α → Option Bool} {x : α}
    {racc r : List α} (h : insGo cmp x racc = some r) :
    r.length = racc.length + 1 := by
  have hp := (insGo_perm h).length_eq
  simpa using hp

/-- The imperative inner loop on an element sitting just after the
processed prefix is the functional bubbling pass on the reversed prefix. -/
theorem insSortInner_eq {α : Type} (cmp : α → α → Option Bool) :
    ∀ (Q : List α) (x : α) (S : List α),
      insSortInner cmp 0 Q.length (Q.reverse ++ x :: S) =
        (insGo cmp x Q).map (fun r => r.reverse ++ S) := by
  intro Q
  induction Q with
  | nil => intro x S; rfl
  | cons y Q ih =>
    intro x S
    have hd : (y :: Q).reverse ++ x :: S = Q.reverse ++ y :: x :: S := by
      simp
    have hget1 : getAt (Q.reverse ++ y :: x :: S) (Q.length + 1) = some x := by
      have h := getAt_append_succ Q.reverse y x S
      rwa [List.length_reverse] at h
    have hget0 : getAt (Q.reverse ++ y :: x :: S) Q.length = some y := by
      have h := getAt_append Q.reverse y (x :: S)
      rwa [List.length_reverse] at h
    have hless : lessAt cmp (Q.reverse ++ y :: x :: S) (Q.length + 1) Q.length
        = cmp x y := by
      rw [lessAt, hget1, hget0]
    have hswap : swapL (Q.reverse ++ y :: x :: S) (Q.length + 1) Q.length
        = Q.reverse ++ x :: y :: S := by
      have h := swapL_adj Q.reverse y x S
      rwa [List.length_reverse] at h
    rw [List.length_cons, hd, insSortInner, if_pos (Nat.succ_pos Q.length), hless]
    cases hc : cmp x y with
    | none =>
      rw [insGo, hc]
      rfl
    | some b =>
      cases b with
      | true =>
        show insSortInner cmp 0 Q.length
            (swapL (Q.reverse ++ y :: x :: S) (Q.length + 1) Q.length) = _
        rw [hswap, ih x (y :: S), insGo, hc]
        cases hg : insGo cmp x Q with
        | none => rfl
        | some r => simp
      | false =>
        show some (Q.reverse ++ y :: x :: S) = _
        rw [insGo, hc]
        simp

/-- The imperative outer loop is the functional insertion sort driver. -/
theorem insSortOuter_eq {α : Type} (cmp : α → α → Option Bool) :
    ∀ (rest racc : List α),
      insSortOuter cmp 0 rest.length racc.length (racc.reverse ++ rest) =
        isortGo cmp racc rest := by
  intro rest
  induction rest with
  | nil =>
    intro racc
    show some (racc.reverse ++ []) = _
    rw [List.append_nil, isortGo]
  | cons x xs ih =>
    intro racc
    rw [List.length_cons, insSortOuter, insSortInner_eq cmp racc x xs, isortGo]
    cases hg : insGo cmp x racc with
    | none => rfl
    | some r =>
      show insSortOuter cmp 0 xs.length (racc.length + 1) (r.reverse ++ xs) = _
      rw [← insGo_length hg]
      exact ih r

/-- `insertionSort(data, 0, n)` on the whole slice is the functional
insertion sort. -/
theorem insertionSortGo_eq {α : Type} (cmp : α → α → Option Bool) (l : List α) :
    insertionSortGo cmp l 0 l.length = isort cmp l := by
  cases l with
  | nil => rfl
  | cons x xs =>
    have h := insSortOuter_eq cmp xs [x]
    simp only [List.reverse_cons, List.reverse_nil, List.nil_append,
      List.length_cons, List.length_nil, List.singleton_append,
      Nat.zero_add] at h
    show insSortOuter cmp 0 ((x :: xs).length - (0 + 1)) (0 + 1) (x :: xs)
        = isort cmp (x :: xs)
    have hlen : (x :: xs).length - (0 + 1) = xs.length := by simp
    rw [hlen]
    show insSortOuter cmp 0 xs.length 1 (x :: xs) = isort cmp (x :: xs)
    rw [h]
    rfl

/-- On at most 20 elements `sort.SliceStable` is pure insertion sort: the
block phase is a single `insertionSort(data, 0, n)` (plus a vacuous tail
call when `n = 20`), and the merging rounds are skipped. -/
theorem sliceStable_small {α : Type} (cmp : α → α → Option Bool) (l : List α)
    (h : l.length ≤ 20) : sliceStable cmp l = isort cmp l := by
  by_cases h20 : l.length = 20
  · have h1 : stableBlocks cmp 20 21 0 20 l
        = match insertionSortGo cmp l 0 20 with
          | none => none
          | some d2 => some d2 := by
      show (match insertionSortGo cmp l 0 20 with
            | none => none
            | some d2 => stableBlocks cmp 20 20 20 40 d2) = _
      cases insertionSortGo cmp l 0 20 with
      | none => rfl
      | some d2 => rfl
    have h2 : insertionSortGo cmp l 0 20 = isort cmp l := by
      rw [← h20]
      exact insertionSortGo_eq cmp l
    rw [sliceStable, h20, h1, h2]
    cases isort cmp l with
    | none => rfl
    | some d => rfl
  · have hlt : l.length < 20 := lt_of_le_of_ne h h20
    rw [sliceStable, stableBlocks, if_neg (by omega), insertionSortGo_eq cmp l]
    cases isort cmp l with
    | none => rfl
    | some d =>
      show mergeAll cmp l.length (l.length + 1) 20 d = some d
      rw [mergeAll, if_neg (by omega)]

/-- `sortDecls` on at most 20 declarations is the functional insertion
sort. -/
theorem sortDecls_small (l : List Decl) (h : l.length ≤ 20) :
    sortDecls l = isort cmpAdj l :=
  sliceStable_small cmpAdj l h

/-- `sortFieldList` on at most 20 members is the functional insertion
sort. -/
theorem sortFieldList_small (l : List Field) (h : l.length ≤ 20) :
    sortFieldList l = isort cmpField l :=
  sliceStable_small cmpField l h

/-- The index-tagged declaration sort on at most 20 declarations is the
functional insertion sort. -/
theorem sortDeclsE_small (l : List Decl) (h : l.length ≤ 20) :
    sortDeclsE l = isort (fun a b : Nat × Decl => cmpAdj a.2 b.2) l.enum := by
  apply sliceStable_small
  simpa [List.enum_length] using h

/-- The index-tagged field sort on at most 20 members is the functional
insertion sort. -/
theorem sortFieldListE_small (l : List Field) (h : l.length ≤ 20) :
    sortFieldListE l = isort (fun a b : Nat × Field => cmpField a.2 b.2) l.enum := by
  apply sliceStable_small
  simpa [List.enum_length] using h

/-- The plain sort is the projection of the index-tagged sort, on at most
20 declarations. -/
theorem sortDecls_eq_E (l : List Decl) (h : l.length ≤ 20) :
    sortDecls l = (sortDeclsE l).map (List.map Prod.snd) := by
  rw [sortDecls_small l h, sortDeclsE_small l h]
  exact isort_decls_proj l

/-- The plain field sort is the projection of the index-tagged sort, on at
most 20 members. -/
theorem sortFieldList_eq_E (l : List Field) (h : l.length ≤ 20) :
    sortFieldList l = (sortFieldListE l).map (List.map Prod.snd) := by
  rw [sortFieldList_small l h, sortFieldListE_small l h]
  exact isort_fields_proj l

/-- Index-tagged inputs have no duplicate entries. -/
theorem enum_nodup {α : Type} (l : List α) : l.enum.Nodup := by
  have h : (l.enum.map Prod.fst).Nodup := by
    rw [List.enum_map_fst]
    exact List.nodup_range l.length
  exact List.Nodup.of_map Prod.fst h

/-! Facts about the declaration classifier. -/

/-- The weight the classifier assigns to a declaration. -/
def declWeight (d : Decl) : Int := (name d).2

/-- The grouping string of a declaration: its receiver type name for a
function, the type name for a `TYPE` GenDecl, empty otherwise. -/
def keyStr : Decl → String
  | .funcDecl recv _ => fieldListName recv
  | .genDecl tok specName => if tok == Tok.typeTok then specName else ""
  | .badDecl => ""

/-- The sort key of a declaration: weight, then grouping string. -/
def keyOf (d : Decl) : Int × String := (declWeight d, keyStr d)

/-- All identifier material of the declaration is dot-free (true of every
declaration produced by a Go parser, since Go identifiers contain no dot). -/
def declDotFree : Decl → Bool
  | .funcDecl recv nm => countDots (fieldListName recv) == 0 && countDots nm == 0
  | .genDecl _ specName => countDots specName == 0
  | .badDecl => true

/-- A function declaration never classifies with the sentinel weight. -/
theorem funcName_snd_ne (recv : Option (List Field)) (nm : String) :
    (funcName (Decl.funcDecl recv nm)).2 ≠ -1 := by
  rw [funcName]
  split_ifs <;>
    norm_num [mainFuncWeight, constructorFuncWeight, exportedFuncWeight, funcWeight,
      typeWeight]

/-- On function declarations, `name` is `funcName`. -/
theorem name_funcDecl (recv : Option (List Field)) (nm : String) :
    name (Decl.funcDecl recv nm) = funcName (Decl.funcDecl recv nm) := by
  rw [name, if_pos (funcName_snd_ne recv nm)]

/-- On GenDecls, `name` is `genName`. -/
theorem name_genDecl (tok : Tok) (sn : String) :
    name (Decl.genDecl tok sn) = genName (Decl.genDecl tok sn) := by
  rw [name]
  simp only [funcName]
  rw [if_neg (by decide)]

/-- On other declarations, `name` is the sentinel. -/
theorem name_badDecl : name Decl.badDecl = ("", -1) := by
  rw [name]
  simp only [funcName]
  rw [if_neg (by decide)]
  rfl

/-- The possible weights. -/
theorem declWeight_cases (d : Decl) :
    declWeight d = -1 ∨ declWeight d = 10 ∨ declWeight d = 29 ∨ declWeight d = 30 ∨
      declWeight d = 50 ∨ declWeight d = 100 ∨ declWeight d = 200 := by
  cases d with
  | funcDecl recv nm =>
    rw [declWeight, name_funcDecl, funcName]
    split_ifs <;>
      norm_num [mainFuncWeight, constructorFuncWeight, exportedFuncWeight,
        funcWeight, typeWeight]
  | genDecl tok sn =>
    rw [declWeight, name_genDecl, genName]
    split_ifs <;> norm_num [typeWeight]
  | badDecl =>
    rw [declWeight, name_badDecl]
    norm_num

/-- Declarations outside the type/method bucket have an empty grouping
string. -/
theorem keyStr_eq_empty (d : Decl) (h : declWeight d ≠ 100) : keyStr d = "" := by
  cases d with
  | funcDecl recv nm =>
    rw [keyStr]
    by_cases hfr : fieldListName recv = ""
    · exact hfr
    · exfalso
      apply h
      rw [declWeight, name_funcDecl, funcName, if_neg hfr]
      rfl
  | genDecl tok sn =>
    rw [keyStr]
    by_cases ht : tok == Tok.typeTok
    · exfalso
      apply h
      rw [declWeight, name_genDecl, genName, if_pos ht]
      rfl
    · rw [if_neg ht]
  | badDecl => rfl

/-- In the type/method bucket the synthesized name splits at its dot into
the grouping string and a member name. -/
theorem name_split_100 (d : Decl) (hw : declWeight d = 100) (hd : declDotFree d = true) :
    ∃ nm, splitOnDot (name d).1 = some (keyStr d, nm) ∧ countDots nm = 0 := by
  cases d with
  | funcDecl recv nm =>
    rw [declDotFree, Bool.and_eq_true, beq_iff_eq, beq_iff_eq] at hd
    rw [declWeight, name_funcDecl, funcName] at hw
    rw [name_funcDecl, funcName, keyStr]
    by_cases hfr : fieldListName recv = ""
    · exfalso
      rw [if_pos hfr] at hw
      revert hw
      split_ifs <;> intro hw <;>
        norm_num [mainFuncWeight, constructorFuncWeight, exportedFuncWeight,
          funcWeight] at hw
    · rw [if_neg hfr] at hw ⊢
      exact ⟨nm, splitOnDot_append (fieldListName recv) nm hd.1 hd.2, hd.2⟩
  | genDecl tok sn =>
    rw [declDotFree, beq_iff_eq] at hd
    rw [declWeight, name_genDecl, genName] at hw
    rw [name_genDecl, genName, keyStr]
    by_cases ht : tok == Tok.typeTok
    · rw [if_pos ht] at hw ⊢
      rw [if_pos ht]
      exact ⟨magicTypeMarker, splitOnDot_append sn magicTypeMarker hd (by decide), by decide⟩
    · exfalso
      rw [if_neg ht] at hw
      exact absurd hw (by decide)
  | badDecl =>
    rw [declWeight, name_badDecl] at hw
    exact absurd hw (by decide)

/-- The comparator with the anchoring branch discharged. -/
theorem cmpAdj_eq (x y : Decl) (hx : preserveOrder x = false) (hy : preserveOrder y = false) :
    cmpAdj x y =
      (if (name x).2 = -1 ∧ (name y).2 = -1 then some false
       else if (name x).2 ≠ (name y).2 then some (decide ((name x).2 < (name y).2))
       else lesss (name x).1 (name y).1) := by
  rw [cmpAdj, hx, hy]
  rfl

/-- Anchored comparisons always report already-ordered. -/
theorem cmpAdj_pres (x y : Decl) (h : (preserveOrder x || preserveOrder y) = true) :
    cmpAdj x y = some false := by
  rw [cmpAdj, h]
  rfl

/-- Two unrecognized declarations always report already-ordered. -/
theorem cmpAdj_others (x y : Decl) (hx : preserveOrder x = false)
    (hy : preserveOrder y = false) (hwx : declWeight x = -1) (hwy : declWeight y = -1) :
    cmpAdj x y = some false := by
  rw [cmpAdj_eq x y hx hy]
  rw [declWeight] at hwx hwy
  rw [if_pos ⟨hwx, hwy⟩]

/-- On unanchored declarations with different sort keys, the comparator
agrees with the key order. -/
theorem cmpAdj_cross (x y : Decl) (hx : preserveOrder x = false)
    (hy : preserveOrder y = false) (hdx : declDotFree x = true) (hdy : declDotFree y = true)
    (hk : keyOf x ≠ keyOf y) :
    cmpAdj x y = some (keyLt (keyOf x) (keyOf y)) := by
  rw [cmpAdj_eq x y hx hy]
  by_cases h1 : (name x).2 = -1 ∧ (name y).2 = -1
  · exfalso
    apply hk
    rw [keyOf, keyOf, declWeight, declWeight, h1.1, h1.2,
      keyStr_eq_empty x (by rw [declWeight, h1.1]; decide),
      keyStr_eq_empty y (by rw [declWeight, h1.2]; decide)]
  · rw [if_neg h1]
    by_cases h2 : (name x).2 = (name y).2
    · rw [if_neg (by simpa using h2)]
      have hw100 : (name x).2 = 100 := by
        by_contra hne
        apply hk
        rw [keyOf, keyOf, declWeight, declWeight, ← h2,
          keyStr_eq_empty x (by rw [declWeight]; exact hne),
          keyStr_eq_empty y (by rw [declWeight, ← h2]; exact hne)]
      obtain ⟨n1, hs1, _⟩ := name_split_100 x (by rw [declWeight]; exact hw100) hdx
      obtain ⟨n2, hs2, _⟩ := name_split_100 y (by rw [declWeight, ← h2]; exact hw100) hdy
      have hks : keyStr x ≠ keyStr y := by
        intro he
        apply hk
        rw [keyOf, keyOf, declWeight, declWeight, ← h2, he]
      simp only [lesss, hs1, hs2]
      rw [if_pos hks]
      simp only [keyOf, keyLt, declWeight]
      rw [if_pos h2]
    · rw [if_pos h2]
      simp only [keyOf, keyLt, declWeight]
      rw [if_neg h2]

/-! Asymmetry of the comparators. -/

/-- The string comparison at the heart of both sorts is asymmetric. -/
theorem lesss_asymm (s t : String) (h : lesss s t = some true) : lesss t s = some false := by
  cases hs1 : splitOnDot s with
  | none =>
    rw [lesss, hs1] at h
    cases h
  | some pr1 =>
    cases hs2 : splitOnDot t with
    | none =>
      rw [lesss, hs1, hs2] at h
      cases h
    | some pr2 =>
      obtain ⟨r1, n1⟩ := pr1
      obtain ⟨r2, n2⟩ := pr2
      simp only [lesss, hs1, hs2] at h ⊢
      by_cases hr : r1 = r2
      · rw [if_neg (fun hne => hne hr)] at h
        rw [if_neg (fun hne => hne hr.symm)]
        by_cases hw : (100 + weightAdjustment n1 : Int) = 100 + weightAdjustment n2
        · rw [if_neg (fun hne => hne hw)] at h
          rw [if_neg (fun hne => hne hw.symm)]
          cases htr1 : trimCommonPrefix n1 with
          | mk p1 rem1 =>
            cases htr2 : trimCommonPrefix n2 with
            | mk p2 rem2 =>
              simp only [htr1, htr2] at h ⊢
              by_cases hc : rem1 ≠ "" ∧ rem2 ≠ ""
              · rw [if_pos hc] at h
                rw [if_pos ⟨hc.2, hc.1⟩]
                simp only [Option.some.injEq] at h
                rw [ltS_asymm h]
              · rw [if_neg hc] at h
                rw [if_neg (fun hcc => hc ⟨hcc.2, hcc.1⟩)]
                simp only [Option.some.injEq] at h
                rw [ltS_asymm h]
        · rw [if_pos hw] at h
          rw [if_pos (fun he => hw he.symm)]
          simp only [Option.some.injEq, decide_eq_true_eq] at h
          simp only [Option.some.injEq, decide_eq_false_iff_not]
          omega
      · rw [if_pos hr] at h
        rw [if_pos (fun he => hr he.symm)]
        simp only [Option.some.injEq] at h
        rw [ltS_asymm h]

/-- The embedded-member comparison is asymmetric. -/
theorem less_asymm (s t : Expr) (h : less s t = some true) : less t s = some false := by
  cases h1 : strf s with
  | none =>
    rw [less, h1] at h
    cases h
  | some s1 =>
    cases h2 : strf t with
    | none =>
      rw [less, h1, h2] at h
      cases h
    | some s2 =>
      rw [less, h1, h2] at h
      rw [less, h1, h2]
      exact lesss_asymm s1 s2 h

/-- The declaration comparator is asymmetric. -/
theorem cmpAdj_asymm (x y : Decl) (h : cmpAdj x y = some true) : cmpAdj y x = some false := by
  cases hpx : preserveOrder x with
  | true =>
    rw [cmpAdj_pres x y (by rw [hpx]; rfl)] at h
    cases h
  | false =>
    cases hpy : preserveOrder y with
    | true =>
      rw [cmpAdj_pres x y (by rw [hpy, Bool.or_true])] at h
      cases h
    | false =>
      rw [cmpAdj_eq x y hpx hpy] at h
      rw [cmpAdj_eq y x hpy hpx]
      by_cases h1 : (name x).2 = -1 ∧ (name y).2 = -1
      · rw [if_pos h1] at h
        cases h
      · rw [if_neg h1] at h
        rw [if_neg (fun h2 => h1 ⟨h2.2, h2.1⟩)]
        by_cases h2 : (name x).2 = (name y).2
        · rw [if_neg (fun hne => hne h2)] at h
          rw [if_neg (fun hne => hne h2.symm)]
          exact lesss_asymm (name x).1 (name y).1 h
        · rw [if_pos h2] at h
          rw [if_pos (fun he => h2 he.symm)]
          simp only [Option.some.injEq, decide_eq_true_eq] at h
          simp only [Option.some.injEq, decide_eq_false_iff_not]
          omega

/-- The interface-member comparator is asymmetric. -/
theorem cmpField_asymm (f g : Field) (h : cmpField f g = some true) :
    cmpField g f = some false := by
  cases hn1 : f.names with
  | nil =>
    cases hn2 : g.names with
    | nil =>
      rw [cmpField, hn1, hn2] at h
      rw [cmpField, hn1, hn2]
      exact less_asymm f.type g.type h
    | cons a as =>
      rw [cmpField, hn2, hn1]
  | cons a as =>
    cases hn2 : g.names with
    | nil =>
      rw [cmpField, hn1, hn2] at h
      cases h
    | cons b bs =>
      rw [cmpField, hn1, hn2] at h
      rw [cmpField, hn2, hn1]
      exact lesss_asymm a b h

/-! Helper lemmas for the claim statements. -/

/-- Top-level no-pass fact for `isort`. -/
theorem isort_nopass {α : Type} {cmp : α → α → Option Bool} {l r : List α}
    (h : isort cmp l = some r) {a b : α} (hcmp : cmp b a ≠ some true)
    (hab : [a, b].Sublist l) : [a, b].Sublist r :=
  isortGo_nopass cmp a b hcmp l [] r h (by simpa using hab)

/-- An entry of the index-tagged list carries an element of the list. -/
theorem enum_mem_snd {α : Type} {l : List α} {p : Nat × α} (h : p ∈ l.enum) : p.2 ∈ l := by
  have h2 := List.mem_map_of_mem Prod.snd h
  rw [List.enum_map_snd] at h2
  exact h2

/-- Whether a declaration is a method of the type named `tname` (a function
whose receiver type name equals `tname`). -/
def methodOf (tname : String) : Decl → Bool
  | .funcDecl recv _ => fieldListName recv == tname
  | _ => false

/-- The key of a method of a (nonempty-named) type. -/
theorem keyOf_method (recv : Option (List Field)) (nm tname : String)
    (hfr : fieldListName recv = tname) (hne : tname ≠ "") :
    keyOf (Decl.funcDecl recv nm) = (100, tname) := by
  have h1 : declWeight (Decl.funcDecl recv nm) = 100 := by
    rw [declWeight, name_funcDecl, funcName, if_neg (by rw [hfr]; exact hne)]
    rfl
  have h2 : keyStr (Decl.funcDecl recv nm) = tname := hfr
  rw [keyOf, h1, h2]

/-- What lives in the key class of the type named `tname`: the type
declaration itself or a method of it. -/
theorem keyOf_100_cases (d : Decl) (tname : String) (hk : keyOf d = (100, tname)) :
    d = Decl.genDecl Tok.typeTok tname ∨ methodOf tname d = true := by
  rw [keyOf, Prod.mk.injEq] at hk
  cases d with
  | funcDecl recv nm =>
    right
    rw [methodOf, beq_iff_eq]
    exact hk.2
  | genDecl tok sn =>
    left
    have htok : (tok == Tok.typeTok) = true := by
      by_contra hcon
      have hw := hk.1
      rw [declWeight, name_genDecl, genName,
        if_neg (fun hx => hcon hx)] at hw
      exact absurd hw (by decide)
    have hsn : sn = tname := by
      have hs := hk.2
      rw [keyStr, if_pos htok] at hs
      exact hs
    rw [beq_iff_eq] at htok
    rw [htok, hsn]
  | badDecl =>
    exfalso
    have hw := hk.1
    rw [declWeight, name_badDecl] at hw
    exact absurd hw (by decide)

/-- Range of the weight adjustment away from the magic marker. -/
theorem weightAdjustment_range (nm : String) (h : nm ≠ magicTypeMarker) :
    -3 ≤ weightAdjustment nm ∧ weightAdjustment nm ≤ 0 := by
  rw [weightAdjustment]
  simp only [if_neg h]
  split_ifs <;> omega

/-- A type declaration compares strictly before each of its methods (not
named like the magic marker), and conversely. -/
theorem cmpAdj_type_method (tname : String) (recv : Option (List Field)) (nm : String)
    (hfr : fieldListName recv = tname) (hne : tname ≠ "") (hnm : nm ≠ magicTypeMarker)
    (hdt : countDots tname = 0) (hdn : countDots nm = 0) :
    cmpAdj (Decl.genDecl Tok.typeTok tname) (Decl.funcDecl recv nm) = some true ∧
      cmpAdj (Decl.funcDecl recv nm) (Decl.genDecl Tok.typeTok tname) = some false := by
  have hpt : preserveOrder (Decl.genDecl Tok.typeTok tname) = false := rfl
  have hpf : preserveOrder (Decl.funcDecl recv nm) = false := rfl
  have hnt : name (Decl.genDecl Tok.typeTok tname) = (tname ++ "." ++ magicTypeMarker, 100) :=
    rfl
  have hnf : name (Decl.funcDecl recv nm) = (fieldListName recv ++ "." ++ nm, 100) := by
    rw [name_funcDecl, funcName, if_neg (by rw [hfr]; exact hne)]
    rfl
  have hsp1 : splitOnDot (tname ++ "." ++ magicTypeMarker) = some (tname, magicTypeMarker) :=
    splitOnDot_append tname magicTypeMarker hdt (by decide)
  have hsp2 : splitOnDot (fieldListName recv ++ "." ++ nm) = some (tname, nm) := by
    rw [hfr]
    exact splitOnDot_append tname nm hdt hdn
  have hadj : weightAdjustment magicTypeMarker = -5 := by decide
  obtain ⟨hlo, hhi⟩ := weightAdjustment_range nm hnm
  have hw1 : (100 + weightAdjustment magicTypeMarker : Int) ≠ 100 + weightAdjustment nm := by
    omega
  constructor
  · rw [cmpAdj_eq _ _ hpt hpf, hnt, hnf]
    rw [if_neg (by norm_num)]
    rw [if_neg (by norm_num)]
    simp only [lesss, hsp1, hsp2]
    rw [if_neg (fun hc => hc rfl)]
    rw [if_pos hw1]
    simp only [Option.some.injEq, decide_eq_true_eq]
    omega
  · rw [cmpAdj_eq _ _ hpf hpt, hnt, hnf]
    rw [if_neg (by norm_num)]
    rw [if_neg (by norm_num)]
    simp only [lesss, hsp1, hsp2]
    rw [if_neg (fun hc => hc rfl)]
    rw [if_pos (fun he => hw1 he.symm)]
    simp only [Option.some.injEq, decide_eq_false_iff_not]
    omega

/-- The string comparison never reports a string before itself. -/
theorem lesss_irrefl (s : String) : lesss s s ≠ some true := by
  cases hs : splitOnDot s with
  | none =>
    rw [lesss, hs]
    intro hcon
    cases hcon
  | some pr =>
    obtain ⟨r, n⟩ := pr
    simp only [lesss, hs]
    rw [if_neg (fun hc => hc rfl)]
    rw [if_neg (fun hc => hc rfl)]
    cases htr : trimCommonPrefix n with
    | mk p rem =>
      simp only [htr]
      split_ifs <;> simp [ltS_irrefl]

/-- When both splits succeed the string comparison always returns a value. -/
theorem lesss_total (s1 s2 : String) (p1 p2 : String × String)
    (h1 : splitOnDot s1 = some p1) (h2 : splitOnDot s2 = some p2) :
    ∃ b, lesss s1 s2 = some b := by
  obtain ⟨r1, n1⟩ := p1
  obtain ⟨r2, n2⟩ := p2
  simp only [lesss, h1, h2]
  split_ifs <;> exact ⟨_, rfl⟩

/-- The two-class key of an interface member: embedded before named. -/
def fieldKey (f : Field) : Int × String :=
  (match f.names with
   | [] => 0
   | _ :: _ => 1, "")

/-- On members of different classes the member comparator agrees with the
class order. -/
theorem cmpField_cross (x y : Field) (hk : fieldKey x ≠ fieldKey y) :
    cmpField x y = some (keyLt (fieldKey x) (fieldKey y)) := by
  cases hn1 : x.names with
  | nil =>
    cases hn2 : y.names with
    | nil =>
      exfalso
      apply hk
      rw [fieldKey, fieldKey, hn1, hn2]
    | cons b bs =>
      rw [cmpField, hn1, hn2, fieldKey, fieldKey, hn1, hn2]
      rfl
  | cons a as =>
    cases hn2 : y.names with
    | nil =>
      rw [cmpField, hn1, hn2, fieldKey, fieldKey, hn1, hn2]
      rfl
    | cons b bs =>
      exfalso
      apply hk
      rw [fieldKey, fieldKey, hn1, hn2]

/-- The expression shapes on which the embedded-member comparison is total:
a plain identifier or a qualified selector, with dot-free identifiers. -/
def exprOkay (e : Expr) : Prop :=
  (∃ nm, e = Expr.ident nm ∧ countDots nm = 0) ∨
    (∃ x sel, e = Expr.selector x sel ∧ countDots x = 0 ∧ countDots sel = 0)

/-- On such shapes `strf` succeeds with a string that splits. -/
theorem strf_okay (e : Expr) (h : exprOkay e) :
    ∃ s p, strf e = some s ∧ splitOnDot s = some p := by
  rcases h with ⟨nm, he, hd⟩ | ⟨x, sel, he, hdx, hds⟩
  · exact ⟨nm, ("", nm), by rw [he]; rfl, splitOnDot_dotfree nm hd⟩
  · exact ⟨x ++ "." ++ sel, (x, sel), by rw [he]; rfl, splitOnDot_append x sel hdx hds⟩

/-- A method declaration is a function declaration whose receiver type name
matches. -/
theorem methodOf_cases (tname : String) (d : Decl) (h : methodOf tname d = true) :
    ∃ recv nm, d = Decl.funcDecl recv nm ∧ fieldListName recv = tname := by
  cases d with
  | funcDecl recv nm =>
    refine ⟨recv, nm, rfl, ?_⟩
    rw [methodOf, beq_iff_eq] at h
    exact h
  | genDecl tok sn => simp [methodOf] at h
  | badDecl => simp [methodOf] at h

/-- Pointwise form of the key order. -/
theorem keyLt_def (a1 b1 : Int) (a2 b2 : String) :
    keyLt (a1, a2) (b1, b2) = if a1 = b1 then ltS a2 b2 else decide (a1 < b1) := rfl

/-! Concrete declarations used by the scenario claims. -/

/-- The free function `main` of Scenario A. -/
def dMain : Decl := Decl.funcDecl none "main"

/-- The free function `doStuff` of Scenario A. -/
def dDoStuff : Decl := Decl.funcDecl none "doStuff"

/-- The constructor function `newFoo` of Scenario A. -/
def dNewFoo : Decl := Decl.funcDecl none "newFoo"

/-- The type declaration `Foo` of Scenario A. -/
def tFoo : Decl := Decl.genDecl Tok.typeTok "Foo"

/-- The method `(f Foo) Bar` of Scenario A. -/
def mBar : Decl := Decl.funcDecl (some [Field.mk ["f"] (Expr.ident "Foo")]) "Bar"

/-! The claims. -/

/-- C1: for the top-level declaration list `doStuff, type Foo, newFoo,
(f Foo) Bar, main` in source order, `sortDecls` produces the order
`main, newFoo, Foo, Foo.Bar, doStuff`, the five declarations carrying
weights 10, 50, 100, 100 and 200 respectively. -/
theorem claimC1_scenarioA :
    (name dMain).2 = 10 ∧ (name dNewFoo).2 = 50 ∧ (name tFoo).2 = 100 ∧
    (name mBar).2 = 100 ∧ (name dDoStuff).2 = 200 ∧
    sortDecls [dDoStuff, tFoo, dNewFoo, mBar, dMain] =
      some [dMain, dNewFoo, tFoo, mBar, dDoStuff] := by
  decide

/-- C2 as stated is false: with an import declaration between a method and
its type, the anchored comparisons freeze the order, so the method `Foo.Bar`
stays in front of `type Foo` and is not placed immediately after it. -/
theorem claimC2_counterexample :
    sortDecls [mBar, Decl.genDecl Tok.importTok "", tFoo] =
      some [mBar, Decl.genDecl Tok.importTok "", tFoo] ∧
    ¬ ([tFoo, mBar] <:+: [mBar, Decl.genDecl Tok.importTok "", tFoo]) := by
  decide

/-- C2 amended: in a list of at most 20 declarations (the regime where
`sort.SliceStable` is pure insertion sort) with no package/import anchors,
dot-free identifiers, a unique type declaration named `tname` (nonempty),
and no method of it named like the magic type marker, the functions whose
receiver type name equals `tname` appear contiguously immediately after the
type declaration: every such method sorts after the type declaration, and
every entry lying between the type declaration and one of its methods is
itself such a method. -/
theorem claimC2_grouping (l : List Decl) (tname : String) (i0 : Nat)
    (hlen : l.length ≤ 20)
    (h1 : ∀ d ∈ l, preserveOrder d = false)
    (h2 : ∀ d ∈ l, declDotFree d = true)
    (h3 : (i0, Decl.genDecl Tok.typeTok tname) ∈ l.enum)
    (h4 : ∀ (j : Nat) (sn : String),
      (j, Decl.genDecl Tok.typeTok sn) ∈ l.enum → sn = tname → j = i0)
    (h5 : tname ≠ "")
    (h6 : ∀ (j : Nat) (recv : Option (List Field)) (nm : String),
      (j, Decl.funcDecl recv nm) ∈ l.enum → fieldListName recv = tname →
      nm ≠ magicTypeMarker) :
    sortDecls l = (sortDeclsE l).map (List.map Prod.snd) ∧
    ∀ re, sortDeclsE l = some re →
      (i0, Decl.genDecl Tok.typeTok tname) ∈ re ∧
      (∀ e ∈ re, methodOf tname e.2 = true →
        [(i0, Decl.genDecl Tok.typeTok tname), e].Sublist re) ∧
      (∀ a b : Nat × Decl, [(i0, Decl.genDecl Tok.typeTok tname), a].Sublist re →
        [a, b].Sublist re → methodOf tname b.2 = true → methodOf tname a.2 = true) := by
  refine ⟨sortDecls_eq_E l hlen, ?_⟩
  intro re hre0
  have hre : isort (fun a b : Nat × Decl => cmpAdj a.2 b.2) l.enum = some re := by
    rw [← sortDeclsE_small l hlen]
    exact hre0
  have hcross : ∀ x ∈ l.enum, ∀ y ∈ l.enum, keyOf x.2 ≠ keyOf y.2 →
      cmpAdj x.2 y.2 = some (keyLt (keyOf x.2) (keyOf y.2)) := fun x hx y hy hk =>
    cmpAdj_cross x.2 y.2 (h1 x.2 (enum_mem_snd hx)) (h1 y.2 (enum_mem_snd hy))
      (h2 x.2 (enum_mem_snd hx)) (h2 y.2 (enum_mem_snd hy)) hk
  have htd : declDotFree (Decl.genDecl Tok.typeTok tname) = true := h2 _ (enum_mem_snd h3)
  have hdt : countDots tname = 0 := by
    rw [declDotFree, beq_iff_eq] at htd
    exact htd
  have hmin : ∀ y ∈ l.enum,
      keyOf y.2 = keyOf ((i0, Decl.genDecl Tok.typeTok tname) : Nat × Decl).2 →
      y ≠ (i0, Decl.genDecl Tok.typeTok tname) →
      cmpAdj (Decl.genDecl Tok.typeTok tname) y.2 = some true ∧
        cmpAdj y.2 (Decl.genDecl Tok.typeTok tname) = some false := by
    rintro ⟨j, d⟩ hy hk hne
    have hk2 : keyOf d = (100, tname) := hk
    rcases keyOf_100_cases d tname hk2 with hcase | hcase
    · exfalso
      subst hcase
      exact hne (by rw [h4 j tname hy rfl])
    · obtain ⟨recv, nm, rfl, hfr⟩ := methodOf_cases tname d hcase
      have hdd : declDotFree (Decl.funcDecl recv nm) = true := h2 _ (enum_mem_snd hy)
      rw [declDotFree, Bool.and_eq_true, beq_iff_eq, beq_iff_eq] at hdd
      exact cmpAdj_type_method tname recv nm hfr h5 (h6 j recv nm hy hfr) hdt hdd.2
  have hx0re : (i0, Decl.genDecl Tok.typeTok tname) ∈ re := (isort_perm hre).mem_iff.2 h3
  have hnd_re : re.Nodup := ((isort_perm hre).nodup_iff).2 (enum_nodup l)
  have hsorted := isort_sorted (fun e : Nat × Decl => keyOf e.2) hcross hre
  refine ⟨hx0re, ?_, ?_⟩
  · rintro ⟨j, d⟩ he hm
    obtain ⟨recv, nm, rfl, hfr⟩ := methodOf_cases tname d hm
    have hke : keyOf (Decl.funcDecl recv nm) = (100, tname) :=
      keyOf_method recv nm tname hfr h5
    refine isort_minFirst (fun e : Nat × Decl => keyOf e.2)
      ((i0, Decl.genDecl Tok.typeTok tname)) (enum_nodup l) hcross hmin hre hx0re
      (j, Decl.funcDecl recv nm) he hke ?_
    intro hcon
    simp at hcon
  · intro a b hxa hab hmb
    have hp1 : keyLt (keyOf a.2) (keyOf (Decl.genDecl Tok.typeTok tname)) = false :=
      pairwise_pair hsorted hxa
    rcases b with ⟨jb, db⟩
    obtain ⟨recvb, nmb, rfl, hfrb⟩ := methodOf_cases tname db hmb
    have hp2 : keyLt (keyOf (Decl.funcDecl recvb nmb)) (keyOf a.2) = false :=
      pairwise_pair hsorted hab
    rw [keyOf_method recvb nmb tname hfrb h5] at hp2
    have hka : keyOf a.2 = (100, tname) := keyLt_eq_of hp1 hp2
    rcases keyOf_100_cases a.2 tname hka with hcase | hcase
    · exfalso
      rcases a with ⟨ja, da⟩
      have hda : da = Decl.genDecl Tok.typeTok tname := hcase
      subst hda
      have hamem : (ja, Decl.genDecl Tok.typeTok tname) ∈ l.enum :=
        (isort_perm hre).mem_iff.1 (hab.subset (List.mem_cons_self _ _))
      have hji : ja = i0 := h4 ja tname hamem rfl
      rw [hji] at hxa
      have hne2 : ((i0, Decl.genDecl Tok.typeTok tname) : Nat × Decl) ≠
          (i0, Decl.genDecl Tok.typeTok tname) := pairwise_pair hnd_re hxa
      exact hne2 rfl
    · exact hcase

/-- Witness for C2 at the list `(f Foo) Bar, type Foo`: the sorted output
places the type first and its method right after it. -/
theorem claimC2_witness :
    [((1 : Nat), tFoo), (0, mBar)].Sublist [((1 : Nat), tFoo), (0, mBar)] := by
  have h4w : ∀ (j : Nat) (sn : String),
      (j, Decl.genDecl Tok.typeTok sn) ∈ ([mBar, tFoo] : List Decl).enum →
      sn = "Foo" → j = 1 := by
    intro j sn hmem hs
    have he : ([mBar, tFoo] : List Decl).enum = [(0, mBar), (1, tFoo)] := rfl
    rw [he] at hmem
    simp [mBar, tFoo] at hmem
    exact hmem.1
  have h6w : ∀ (j : Nat) (recv : Option (List Field)) (nm : String),
      (j, Decl.funcDecl recv nm) ∈ ([mBar, tFoo] : List Decl).enum →
      fieldListName recv = "Foo" → nm ≠ magicTypeMarker := by
    intro j recv nm hmem _
    have he : ([mBar, tFoo] : List Decl).enum = [(0, mBar), (1, tFoo)] := rfl
    rw [he] at hmem
    simp [mBar, tFoo] at hmem
    rw [hmem.2.2]
    decide
  have h := (claimC2_grouping [mBar, tFoo] "Foo" 1 (by decide) (by decide) (by decide)
      (by decide) h4w (by decide) h6w).2 [((1 : Nat), tFoo), (0, mBar)] (by decide)
  exact h.2.1 (0, mBar) (by decide) (by decide)

/-- An import declaration (anchored by `preserveOrder`). -/
def dImport : Decl := Decl.genDecl Tok.importTok ""

/-- A 21-declaration input: fifteen name-ordered free functions, five import
declarations, and `main` last.  This is one element beyond Go's
insertion-sort block size, so `sort.SliceStable` runs `symMerge(0, 20, 21)`
on it. -/
def longDecls : List Decl :=
  [Decl.funcDecl none "f00", Decl.funcDecl none "f01", Decl.funcDecl none "f02",
   Decl.funcDecl none "f03", Decl.funcDecl none "f04", Decl.funcDecl none "f05",
   Decl.funcDecl none "f06", Decl.funcDecl none "f07", Decl.funcDecl none "f08",
   Decl.funcDecl none "f09", Decl.funcDecl none "f10", Decl.funcDecl none "f11",
   Decl.funcDecl none "f12", Decl.funcDecl none "f13", Decl.funcDecl none "f14",
   dImport, dImport, dImport, dImport, dImport, dMain]

/-- The output `sortDecls` produces on `longDecls`: the `b-m == 1` branch of
`symMerge` binary-searches an insertion point for `main` against the
functions only (`Less(20, h)` at `h = 10, 5, 2, 1, 0`, all `true`) and then
slides `main` from position 20 to position 0, crossing the five imports
without comparing against any of them. -/
def longSorted : List Decl :=
  [dMain,
   Decl.funcDecl none "f00", Decl.funcDecl none "f01", Decl.funcDecl none "f02",
   Decl.funcDecl none "f03", Decl.funcDecl none "f04", Decl.funcDecl none "f05",
   Decl.funcDecl none "f06", Decl.funcDecl none "f07", Decl.funcDecl none "f08",
   Decl.funcDecl none "f09", Decl.funcDecl none "f10", Decl.funcDecl none "f11",
   Decl.funcDecl none "f12", Decl.funcDecl none "f13", Decl.funcDecl none "f14",
   dImport, dImport, dImport, dImport, dImport]

/-- C3 as stated is false: at 21 declarations the sort leaves the
insertion-sort regime, and `symMerge` moves `main` from after the five
anchored declarations to before them without comparing it against any of
them, so an anchored declaration does not keep its position relative to
every other declaration. -/
theorem claimC3_counterexample :
    [dImport, dMain].Sublist longDecls ∧
    sortDecls longDecls = some longSorted ∧
    ¬ [dImport, dMain].Sublist longSorted := by
  decide

/-- C3 amended: for lists of at most 20 declarations (the regime where
`sort.SliceStable` is pure insertion sort) a package or import declaration
keeps its position relative to every other declaration: every pair of
entries one of which is anchored appears in the output of the (index-tagged)
sort in its original order; the first conjunct ties the tagged sort to
`sortDecls` itself.  Beyond 20 declarations the property fails. -/
theorem claimC3_anchoring (l : List Decl) (hlen : l.length ≤ 20) :
    sortDecls l = (sortDeclsE l).map (List.map Prod.snd) ∧
    ∀ re, sortDeclsE l = some re →
      ∀ (i j : Nat) (di dj : Decl), [(i, di), (j, dj)].Sublist l.enum →
      (preserveOrder di || preserveOrder dj) = true →
      [(i, di), (j, dj)].Sublist re := by
  refine ⟨sortDecls_eq_E l hlen, ?_⟩
  intro re hre0 i j di dj hsub hpres
  have hre : isort (fun a b : Nat × Decl => cmpAdj a.2 b.2) l.enum = some re := by
    rw [← sortDeclsE_small l hlen]
    exact hre0
  have hp2 : (preserveOrder dj || preserveOrder di) = true := by
    rcases (by simpa using hpres : preserveOrder di = true ∨ preserveOrder dj = true) with
      h | h <;> simp [h]
  refine isort_nopass hre ?_ hsub
  rw [cmpAdj_pres dj di hp2]
  intro hcon
  cases hcon

/-- Witness for C3 at a concrete two-declaration list. -/
theorem claimC3_witness :
    [((0 : Nat), Decl.genDecl Tok.importTok ""), (1, dMain)].Sublist
      [((0 : Nat), Decl.genDecl Tok.importTok ""), (1, dMain)] :=
  (claimC3_anchoring [Decl.genDecl Tok.importTok "", dMain] (by decide)).2
    [((0 : Nat), Decl.genDecl Tok.importTok ""), (1, dMain)] (by decide)
    0 1 (Decl.genDecl Tok.importTok "") dMain (by decide) (by decide)

/-- C4 as stated is false: in the 21-declaration list `longDecls` the pair
(import, `main`) ties under the comparator (both direct comparisons return
`some false`, the import being anchored), yet the sort flips the pair:
`symMerge` slides `main` ahead of the imports without comparing them. -/
theorem claimC4_counterexample :
    cmpAdj dImport dMain = some false ∧
    cmpAdj dMain dImport = some false ∧
    [dImport, dMain].Sublist longDecls ∧
    sortDecls longDecls = some longSorted ∧
    ¬ [dImport, dMain].Sublist longSorted := by
  decide

/-- C4 amended: on lists of at most 20 entries (the regime where
`sort.SliceStable` is pure insertion sort) the sorts are stable: two entries
whose computed keys compare equal under the comparator (both direct
comparisons return `some false`) keep their original relative order, in
`sortDecls` and in `sortFieldList`; the first two conjuncts tie the tagged
sorts to the plain ones.  Beyond 20 entries stability fails for tied pairs
involving an anchored declaration. -/
theorem claimC4_stability :
    (∀ l : List Decl, l.length ≤ 20 →
      sortDecls l = (sortDeclsE l).map (List.map Prod.snd)) ∧
    (∀ l : List Field, l.length ≤ 20 →
      sortFieldList l = (sortFieldListE l).map (List.map Prod.snd)) ∧
    (∀ (l : List Decl) (re : List (Nat × Decl)), l.length ≤ 20 →
      sortDeclsE l = some re →
      ∀ (i j : Nat) (di dj : Decl), [(i, di), (j, dj)].Sublist l.enum →
      cmpAdj di dj = some false → cmpAdj dj di = some false →
      [(i, di), (j, dj)].Sublist re) ∧
    (∀ (l : List Field) (re : List (Nat × Field)), l.length ≤ 20 →
      sortFieldListE l = some re →
      ∀ (i j : Nat) (fi fj : Field), [(i, fi), (j, fj)].Sublist l.enum →
      cmpField fi fj = some false → cmpField fj fi = some false →
      [(i, fi), (j, fj)].Sublist re) := by
  refine ⟨sortDecls_eq_E, sortFieldList_eq_E, ?_, ?_⟩
  · intro l re hlen hre0 i j di dj hsub _ h2
    have hre : isort (fun a b : Nat × Decl => cmpAdj a.2 b.2) l.enum = some re := by
      rw [← sortDeclsE_small l hlen]
      exact hre0
    refine isort_nopass hre ?_ hsub
    rw [h2]
    intro hcon
    cases hcon
  · intro l re hlen hre0 i j fi fj hsub _ h2
    have hre : isort (fun a b : Nat × Field => cmpField a.2 b.2) l.enum = some re := by
      rw [← sortFieldListE_small l hlen]
      exact hre0
    refine isort_nopass hre ?_ hsub
    rw [h2]
    intro hcon
    cases hcon

/-- Witness for C4: the tied pair `setValue`, `getValue`, as declarations and
as interface members, keeps its original order. -/
theorem claimC4_witness :
    ([((0 : Nat), Decl.funcDecl none "setValue"),
      (1, Decl.funcDecl none "getValue")].Sublist
      [((0 : Nat), Decl.funcDecl none "setValue"),
       (1, Decl.funcDecl none "getValue")]) ∧
    ([((0 : Nat), Field.mk ["setValue"] Expr.funcTypeE),
      (1, Field.mk ["getValue"] Expr.funcTypeE)].Sublist
      [((0 : Nat), Field.mk ["setValue"] Expr.funcTypeE),
       (1, Field.mk ["getValue"] Expr.funcTypeE)]) :=
  ⟨claimC4_stability.2.2.1 [Decl.funcDecl none "setValue", Decl.funcDecl none "getValue"]
      [((0 : Nat), Decl.funcDecl none "setValue"), (1, Decl.funcDecl none "getValue")]
      (by decide) (by decide) 0 1 (Decl.funcDecl none "setValue")
      (Decl.funcDecl none "getValue") (by decide) (by decide) (by decide),
   claimC4_stability.2.2.2 [Field.mk ["setValue"] Expr.funcTypeE,
      Field.mk ["getValue"] Expr.funcTypeE]
      [((0 : Nat), Field.mk ["setValue"] Expr.funcTypeE),
       (1, Field.mk ["getValue"] Expr.funcTypeE)]
      (by decide) (by decide) 0 1 (Field.mk ["setValue"] Expr.funcTypeE)
      (Field.mk ["getValue"] Expr.funcTypeE) (by decide) (by decide) (by decide)⟩

/-- C5 as stated is false: `getValue` and `setValue` tie (so `setValue` is
not moved behind `getValue` when it comes first), and entries matching the
same prefix do not group together (`geta` and `getz` end up separated by
`m`). -/
theorem claimC5_counterexample :
    sortDecls [Decl.funcDecl none "setValue", Decl.funcDecl none "getValue"] =
      some [Decl.funcDecl none "setValue", Decl.funcDecl none "getValue"] ∧
    sortDecls [Decl.funcDecl none "getz", Decl.funcDecl none "m",
        Decl.funcDecl none "geta"] =
      some [Decl.funcDecl none "geta", Decl.funcDecl none "m",
        Decl.funcDecl none "getz"] := by
  decide

/-- C5 amended: on a weight tie the secondary rule strips at most one prefix
from the fixed list (exact-case or lower-cased); when both names have a
nonempty remainder after stripping, the comparison is on the remainders
alone (the stripped prefixes are ignored, so names matching no prefix
compare on the full name and same-prefix names compare on remainders);
otherwise the canonical prefixes are compared (empty when unmatched).  In
particular `getValue` and `setValue` have equal remainders `Value` and tie,
keeping their original relative order under the stable sort. -/
theorem claimC5_amended :
    (∀ n1 n2 : String, countDots n1 = 0 → countDots n2 = 0 →
      (100 + weightAdjustment n1 : Int) = 100 + weightAdjustment n2 →
      lesss n1 n2 = some
        (if (trimCommonPrefix n1).2 ≠ "" ∧ (trimCommonPrefix n2).2 ≠ ""
         then ltS (trimCommonPrefix n1).2 (trimCommonPrefix n2).2
         else ltS (trimCommonPrefix n1).1 (trimCommonPrefix n2).1)) ∧
    lesss "getValue" "setValue" = some false ∧
    lesss "setValue" "getValue" = some false := by
  refine ⟨?_, by decide, by decide⟩
  intro n1 n2 h1 h2 hw
  simp only [lesss, splitOnDot_dotfree n1 h1, splitOnDot_dotfree n2 h2]
  rw [if_neg (fun hc => hc rfl)]
  rw [if_neg (fun hc => hc hw)]
  split_ifs <;> rfl

/-- Witness for C5 at the pair from Scenario C. -/
theorem claimC5_witness :
    countDots "getValue" = 0 ∧ lesss "getValue" "setValue" = some false :=
  ⟨by decide,
   claimC5_amended.1 "getValue" "setValue" (by decide) (by decide) (by decide)⟩

/-- C6 as stated is false: a `var` block (an Other declaration) that follows
the recognized free function `doStuff` moves in front of it. -/
theorem claimC6_counterexample :
    sortDecls [dDoStuff, Decl.genDecl Tok.varTok ""] =
      some [Decl.genDecl Tok.varTok "", dDoStuff] := by
  decide

/-- C6 amended: Other declarations carry the sentinel weight −1, which the
comparator orders below every recognized weight; in a list of at most 20
declarations (the regime where `sort.SliceStable` is pure insertion sort)
without package/import anchors and with dot-free identifiers, every Other
declaration therefore sorts ahead of every recognized declaration, while
Other declarations keep their original relative order among themselves. -/
theorem claimC6_amended (l : List Decl)
    (hlen : l.length ≤ 20)
    (h1 : ∀ d ∈ l, preserveOrder d = false)
    (h2 : ∀ d ∈ l, declDotFree d = true) :
    ∀ re, sortDeclsE l = some re →
    (∀ a b : Nat × Decl, [a, b].Sublist re → declWeight b.2 = -1 → declWeight a.2 = -1) ∧
    (∀ (i j : Nat) (oi oj : Decl), [(i, oi), (j, oj)].Sublist l.enum →
      declWeight oi = -1 → declWeight oj = -1 → [(i, oi), (j, oj)].Sublist re) := by
  intro re hre0
  have hre : isort (fun a b : Nat × Decl => cmpAdj a.2 b.2) l.enum = some re := by
    rw [← sortDeclsE_small l hlen]
    exact hre0
  have hcross : ∀ x ∈ l.enum, ∀ y ∈ l.enum, keyOf x.2 ≠ keyOf y.2 →
      cmpAdj x.2 y.2 = some (keyLt (keyOf x.2) (keyOf y.2)) := fun x hx y hy hk =>
    cmpAdj_cross x.2 y.2 (h1 x.2 (enum_mem_snd hx)) (h1 y.2 (enum_mem_snd hy))
      (h2 x.2 (enum_mem_snd hx)) (h2 y.2 (enum_mem_snd hy)) hk
  constructor
  · intro a b hsub hwb
    have hsorted := isort_sorted (fun e => keyOf e.2) hcross hre
    have hpair : keyLt (keyOf b.2) (keyOf a.2) = false := pairwise_pair hsorted hsub
    have hkb : keyOf b.2 = (-1, "") := by
      rw [keyOf, hwb, keyStr_eq_empty b.2 (by rw [hwb]; decide)]
    rw [hkb, keyOf] at hpair
    rcases declWeight_cases a.2 with h | h | h | h | h | h | h
    · exact h
    all_goals (exfalso; rw [keyLt_def, h] at hpair; simp at hpair)
  · intro i j oi oj hsub hwi hwj
    have hmi : oi ∈ l := enum_mem_snd (hsub.subset (List.mem_cons_self _ _))
    have hmj : oj ∈ l := enum_mem_snd (hsub.subset (List.mem_cons_of_mem _ (List.mem_cons_self _ _)))
    refine isort_nopass hre ?_ hsub
    rw [cmpAdj_others oj oi (h1 oj hmj) (h1 oi hmi) hwj hwi]
    intro hcon
    cases hcon

/-- Witness for C6: in `doStuff, var, const` the two Other blocks sort ahead
of the function and keep their mutual order. -/
theorem claimC6_witness :
    declWeight (Decl.genDecl Tok.varTok "") = -1 ∧
    [((1 : Nat), Decl.genDecl Tok.varTok ""),
     (2, Decl.genDecl Tok.constTok "")].Sublist
      [((1 : Nat), Decl.genDecl Tok.varTok ""), (2, Decl.genDecl Tok.constTok ""),
       (0, dDoStuff)] :=
  ⟨(claimC6_amended [dDoStuff, Decl.genDecl Tok.varTok "", Decl.genDecl Tok.constTok ""]
      (by decide) (by decide) (by decide)
      [((1 : Nat), Decl.genDecl Tok.varTok ""), (2, Decl.genDecl Tok.constTok ""),
       (0, dDoStuff)] (by decide)).1
      ((1 : Nat), Decl.genDecl Tok.varTok "") (2, Decl.genDecl Tok.constTok "")
      (by decide) (by decide),
   (claimC6_amended [dDoStuff, Decl.genDecl Tok.varTok "", Decl.genDecl Tok.constTok ""]
      (by decide) (by decide) (by decide)
      [((1 : Nat), Decl.genDecl Tok.varTok ""), (2, Decl.genDecl Tok.constTok ""),
       (0, dDoStuff)] (by decide)).2
      1 2 (Decl.genDecl Tok.varTok "") (Decl.genDecl Tok.constTok "")
      (by decide) (by decide) (by decide)⟩

/-- C8 as stated is false: the comparator is not transitive (`get` is below
`hasa`, `hasa` below `getz`, yet `get` and `getz` are incomparable), so it
is not a strict weak ordering; the last two conjuncts also refute that
swapping operands negates the result. -/
theorem claimC8_counterexample :
    cmpAdj (Decl.funcDecl none "get") (Decl.funcDecl none "hasa") = some true ∧
    cmpAdj (Decl.funcDecl none "hasa") (Decl.funcDecl none "getz") = some true ∧
    cmpAdj (Decl.funcDecl none "get") (Decl.funcDecl none "getz") = some false ∧
    cmpAdj (Decl.funcDecl none "getz") (Decl.funcDecl none "get") = some false := by
  decide

/-- C8 amended: the comparator is asymmetric (if `a` compares less than `b`
then `b` does not compare less than `a`) and irreflexive, but it is not
transitive and hence not a strict weak ordering. -/
theorem claimC8_amended :
    (∀ x y : Decl, cmpAdj x y = some true → cmpAdj y x = some false) ∧
    (∀ x : Decl, cmpAdj x x ≠ some true) := by
  refine ⟨cmpAdj_asymm, ?_⟩
  intro x
  cases hpx : preserveOrder x with
  | true =>
    rw [cmpAdj_pres x x (by rw [hpx]; rfl)]
    intro h
    cases h
  | false =>
    rw [cmpAdj_eq x x hpx hpx]
    split_ifs with h1 h2
    · intro h
      cases h
    · exact absurd rfl h2
    · exact lesss_irrefl (name x).1

/-- Witness for C8 at a concrete strictly ordered pair. -/
theorem claimC8_witness :
    cmpAdj dMain dDoStuff = some true ∧ cmpAdj dDoStuff dMain = some false :=
  ⟨by decide, claimC8_amended.1 dMain dDoStuff (by decide)⟩

/-- C9: key splitting succeeds, with a dot-free receiver component and name
component reassembling the input, exactly when the input has at most one
dot (at most two dot-separated components); with two or more dots (more
than two components) it panics (`none`) instead of miscomputing. -/
theorem claimC9_splitOnDot (s : String) :
    (splitOnDot s = none ↔ 2 ≤ countDots s) ∧
    (∀ r n, splitOnDot s = some (r, n) →
      countDots r = 0 ∧ countDots n = 0 ∧ ((r = "" ∧ n = s) ∨ s = r ++ "." ++ n)) :=
  ⟨splitOnDot_none_iff s, fun r n h => splitOnDot_some s r n h⟩

/-- Witness for C9 at `a.b.c` (panic) and `x.y` (split). -/
theorem claimC9_witness :
    splitOnDot "a.b.c" = none ∧
    (countDots "x" = 0 ∧ countDots "y" = 0 ∧
      (("x" : String) = "" ∧ "y" = "x.y" ∨ ("x.y" : String) = "x" ++ "." ++ "y")) :=
  ⟨(claimC9_splitOnDot "a.b.c").1.2 (by decide),
   (claimC9_splitOnDot "x.y").2 "x" "y" (by decide)⟩

/-- C10: comparing two embedded members is total when each type expression
is a plain identifier or a qualified selector (with dot-free identifiers),
and there is a member list with an embedded member of another shape (a
pointer type) on which `sortFieldList` panics instead of producing an
order. -/
theorem claimC10_embeddedPanic :
    (∀ e1 e2 : Expr, exprOkay e1 → exprOkay e2 → ∃ b, less e1 e2 = some b) ∧
    sortFieldList [Field.mk [] (Expr.star (Expr.ident "T")),
      Field.mk [] (Expr.ident "U")] = none := by
  constructor
  · intro e1 e2 h1 h2
    obtain ⟨s1, p1, hs1, hp1⟩ := strf_okay e1 h1
    obtain ⟨s2, p2, hs2, hp2⟩ := strf_okay e2 h2
    obtain ⟨b, hb⟩ := lesss_total s1 s2 p1 p2 hp1 hp2
    refine ⟨b, ?_⟩
    simp only [less, hs1, hs2]
    exact hb
  · decide

/-- C7 as stated is false on the named-member rule: `setValue(), getValue()`
is left in source order although `getValue` is lexicographically smaller
(equal stripped remainders `Value` tie, and the stable sort keeps ties), and
the `New` prefix boost puts `NewA` before `Ba` against lexicographic order.
Both orderings contradict the claimed exported/unexported-plus-lexicographic
rule for named members. -/
theorem claimC7_counterexample :
    (sortFieldList [Field.mk ["setValue"] Expr.funcTypeE,
        Field.mk ["getValue"] Expr.funcTypeE] =
      some [Field.mk ["setValue"] Expr.funcTypeE,
        Field.mk ["getValue"] Expr.funcTypeE]) ∧
    ltS "getValue" "setValue" = true ∧
    (sortFieldList [Field.mk ["Ba"] Expr.funcTypeE,
        Field.mk ["NewA"] Expr.funcTypeE] =
      some [Field.mk ["NewA"] Expr.funcTypeE,
        Field.mk ["Ba"] Expr.funcTypeE]) ∧
    ltS "Ba" "NewA" = true := by
  decide

/-- C7 amended: `sortFieldList` places every embedded (unnamed) member
before every named member on lists of at most 20 members (second conjunct:
in the output nothing precedes an embedded member except embedded members),
and orders the members so that no adjacent pair is inverted under the member
comparator (third conjunct); named members follow the comparator's secondary
name rule (weight boosts for exported names and the `New` prefix, then
comparison of prefix-stripped remainders), which is not the claimed
lexicographic rule: names with equal remainders tie in both directions (last
two conjuncts) and keep their source order under the stable sort.  On
Scenario B `Zeta(), io.Reader (embedded), Alpha()` the output is
`io.Reader, Alpha, Zeta` (first conjunct). -/
theorem claimC7_interfaceMembers :
    (sortFieldList
        [Field.mk ["Zeta"] Expr.funcTypeE,
         Field.mk [] (Expr.selector "io" "Reader"),
         Field.mk ["Alpha"] Expr.funcTypeE] =
      some
        [Field.mk [] (Expr.selector "io" "Reader"),
         Field.mk ["Alpha"] Expr.funcTypeE,
         Field.mk ["Zeta"] Expr.funcTypeE]) ∧
    (∀ (l r : List Field), l.length ≤ 20 → sortFieldList l = some r →
      ∀ a b : Field, [a, b].Sublist r → b.names = [] → a.names = []) ∧
    (∀ (l r : List Field), l.length ≤ 20 → sortFieldList l = some r →
      List.Chain' (fun u v => cmpField v u ≠ some true) r) ∧
    cmpField (Field.mk ["getValue"] Expr.funcTypeE)
      (Field.mk ["setValue"] Expr.funcTypeE) = some false ∧
    cmpField (Field.mk ["setValue"] Expr.funcTypeE)
      (Field.mk ["getValue"] Expr.funcTypeE) = some false := by
  refine ⟨by decide, ?_, ?_, by decide, by decide⟩
  · intro l r hlen hr0 a b hsub hb
    have hr : isort cmpField l = some r := by
      rw [← sortFieldList_small l hlen]
      exact hr0
    have hcross : ∀ x ∈ l, ∀ y ∈ l, fieldKey x ≠ fieldKey y →
        cmpField x y = some (keyLt (fieldKey x) (fieldKey y)) :=
      fun x _ y _ hk => cmpField_cross x y hk
    have hsorted := isort_sorted fieldKey hcross hr
    have hpair : keyLt (fieldKey b) (fieldKey a) = false := pairwise_pair hsorted hsub
    cases hna : a.names with
    | nil => rfl
    | cons c cs =>
      exfalso
      have hfa : fieldKey a = (1, "") := by rw [fieldKey, hna]
      have hfb : fieldKey b = (0, "") := by rw [fieldKey, hb]
      rw [hfa, hfb, keyLt_def] at hpair
      simp at hpair
  · intro l r hlen hr0
    have hr : isort cmpField l = some r := by
      rw [← sortFieldList_small l hlen]
      exact hr0
    refine isort_adjacent ?_ hr
    intro x y h
    rw [cmpField_asymm x y h]
    intro hcon
    cases hcon

/-- Witness for C7 at concrete member lists. -/
theorem claimC7_witness :
    (Field.mk [] (Expr.ident "a")).names = [] ∧
    List.Chain' (fun u v => cmpField v u ≠ some true)
      [Field.mk [] (Expr.ident "a"), Field.mk [] (Expr.ident "b")] :=
  ⟨claimC7_interfaceMembers.2.1
      [Field.mk [] (Expr.ident "b"), Field.mk [] (Expr.ident "a")]
      [Field.mk [] (Expr.ident "a"), Field.mk [] (Expr.ident "b")] (by decide)
      (by decide) (Field.mk [] (Expr.ident "a")) (Field.mk [] (Expr.ident "b"))
      (by decide) rfl,
   claimC7_interfaceMembers.2.2.1
      [Field.mk [] (Expr.ident "b"), Field.mk [] (Expr.ident "a")]
      [Field.mk [] (Expr.ident "a"), Field.mk [] (Expr.ident "b")] (by decide)
      (by decide)⟩

/-- Witness for C10 at an identifier and a qualified selector. -/
theorem claimC10_witness :
    exprOkay (Expr.ident "a") ∧
    ∃ b, less (Expr.ident "a") (Expr.selector "io" "Reader") = some b :=
  ⟨Or.inl ⟨"a", rfl, by decide⟩,
   claimC10_embeddedPanic.1 (Expr.ident "a") (Expr.selector "io" "Reader")
     (Or.inl ⟨"a", rfl, by decide⟩)
     (Or.inr ⟨"io", "Reader", rfl, by decide, by decide⟩)⟩

end Gorder
